import Mathlib

/-!
# structschema: polymorphic JSON-LD decoders and relation resolution

A shallow embedding of `pkg/generator/parser.go`.

Modelling conventions

* A `json.RawMessage` that holds a syntactically valid JSON text is modelled by
  the JSON value it denotes (`JSON`).  Object members are kept as an ordered
  list of key/value pairs, since `encoding/json` visits them in document order
  and tolerates repeated keys.
* A Go `string` holds any bytes.  The strings of `StringOrArray`,
  `LanguageString` and of the doc comments are `GoString`s: the string cut, as
  `utf8.DecodeRune` cuts it, into validly encoded characters and bytes that
  belong to no valid encoding.  JSON strings, and the identifiers and names
  made from them, are Unicode text (Lean strings), which is what the JSON
  decoder always produces.
* `json.Unmarshal` into a Go value is modelled per target type; `none` stands
  for a non-nil error (the partially filled target is discarded by every
  caller in this package).
* A nil `[]string` is distinguished from an empty one where the code observes
  the difference (`json.Marshal` prints `null` for the former).
* The library function `strcase.ToPascal` is a parameter `ToPascal` of the
  naming functions; `pascalWord` stands for it on identifiers of one word.
* The order in which Go ranges over a map is a parameter of `GenFile`.
-/

namespace generator

/-! ## Go strings -/

/-- A piece of a Go string as `utf8.DecodeRune` cuts it: a character that is
encoded validly, or a byte that belongs to no valid encoding. -/
inductive GoPiece where
  | char (c : Char)
  | byte (b : Nat)
  deriving DecidableEq

/-- A Go `string`: any sequence of bytes, given by its pieces, the `byte`
pieces being the bytes that `utf8.DecodeRune` reports as invalid.  A string of
valid UTF-8 has only `char` pieces. -/
abbrev GoString := List GoPiece

/-- The Go string holding the UTF-8 encoding of a text. -/
def GoString.ofString (s : String) : GoString := s.data.map GoPiece.char

/-- The Go string is valid UTF-8: every piece is a character. -/
def GoString.validUTF8 (s : GoString) : Bool :=
  s.all fun p =>
    match p with
    | .char _ => true
    | .byte _ => false

/-- The text `encoding/json` writes for a Go string: each byte that belongs to
no valid encoding is replaced by U+FFFD. -/
def GoString.toValidText (s : GoString) : String :=
  String.mk (s.map fun p =>
    match p with
    | .char c => c
    | .byte _ => Char.ofNat 0xFFFD)

/-! ## JSON values and `encoding/json` -/

/-- JSON values; `num` keeps the literal text of a number. -/
inductive JSON where
  | null
  | bool (b : Bool)
  | num (lit : String)
  | str (s : String)
  | arr (items : List JSON)
  | obj (members : List (String × JSON))

/-- Errors built by this package with `fmt.Errorf`. -/
inductive Err where
  /-- The error "invalid IDRef format". -/
  | invalidIDRef
  /-- The error "cannot unmarshal StringOrArray: ..." with the offending data. -/
  | stringOrArray (data : JSON)
  /-- The error "cannot unmarshal LanguageString: ..." with the offending data. -/
  | languageString (data : JSON)

/-- Key folding of `encoding/json`: ASCII letters are upper-cased.  (The only
non-ASCII runes it folds onto ASCII are the Kelvin sign and the long s, which
cannot make a key equal to one of the field names used here.) -/
def foldName (s : String) : List Char := s.data.map Char.toUpper

/-- A member key selects the struct field tagged `field`: exact match or
case-insensitive match. -/
def matchesField (key field : String) : Bool :=
  key == field || foldName key == foldName field

/-- Unmarshal into a Go `string` currently holding `cur`: a JSON string is
stored, `null` leaves the target untouched, anything else is a type error. -/
def unmarshalString (cur : String) : JSON → Option String
  | .str s => some s
  | .null => some cur
  | _ => none

/-- Elements of a JSON array decoded into fresh `string` slots. -/
def unmarshalStringItems : List JSON → Option (List String)
  | [] => some []
  | x :: xs =>
    match unmarshalString "" x, unmarshalStringItems xs with
    | some s, some ss => some (s :: ss)
    | _, _ => none

/-- Unmarshal into a fresh `[]string` (or `[]NodeID`): the inner `none` is the
nil slice left by `null`. -/
def unmarshalStrings : JSON → Option (Option (List String))
  | .arr xs => (unmarshalStringItems xs).map some
  | .null => some none
  | _ => none

/-- Members of a JSON object decoded into `struct { ID NodeID "@id" }` whose
field currently holds `cur`; unknown keys are skipped. -/
def unmarshalIDMembers : List (String × JSON) → String → Option String
  | [], cur => some cur
  | (k, v) :: rest, cur =>
    if matchesField k "@id" then
      match unmarshalString cur v with
      | some s => unmarshalIDMembers rest s
      | none => none
    else unmarshalIDMembers rest cur

/-- Unmarshal into a fresh `struct { ID NodeID "@id" }`, returning the field. -/
def unmarshalIDObject : JSON → Option String
  | .obj ms => unmarshalIDMembers ms ""
  | .null => some ""
  | _ => none

/-- Elements of a JSON array decoded into fresh `struct { ID NodeID "@id" }`
slots. -/
def unmarshalIDObjectItems : List JSON → Option (List String)
  | [] => some []
  | x :: xs =>
    match unmarshalIDObject x, unmarshalIDObjectItems xs with
    | some s, some ss => some (s :: ss)
    | _, _ => none

/-- Unmarshal into a fresh `[]struct { ID NodeID "@id" }`, returning the
fields (`null` leaves the nil slice, which has no element). -/
def unmarshalIDObjects : JSON → Option (List String)
  | .arr xs => unmarshalIDObjectItems xs
  | .null => some []
  | _ => none

/-- Members of a JSON object decoded into
`struct { Value string "@value"; Language string "@language,omitempty" }`. -/
def unmarshalLangMembers : List (String × JSON) → String × String → Option (String × String)
  | [], cur => some cur
  | (k, v) :: rest, cur =>
    if matchesField k "@value" then
      match unmarshalString cur.1 v with
      | some s => unmarshalLangMembers rest (s, cur.2)
      | none => none
    else if matchesField k "@language" then
      match unmarshalString cur.2 v with
      | some s => unmarshalLangMembers rest (cur.1, s)
      | none => none
    else unmarshalLangMembers rest cur

/-- Unmarshal into the fresh anonymous value/language struct. -/
def unmarshalLangObject : JSON → Option (String × String)
  | .obj ms => unmarshalLangMembers ms ("", "")
  | .null => some ("", "")
  | _ => none

/-- The call `json.Marshal` on a `string`: the JSON string of the text, invalid
UTF-8 coerced to U+FFFD. -/
def marshalString (s : GoString) : JSON := .str (GoString.toValidText s)

/-- The call `json.Marshal` on a `[]string`: a nil slice prints `null`. -/
def marshalStrings : Option (List GoString) → JSON
  | none => .null
  | some xs => .arr (xs.map marshalString)

/-- The call `json.Marshal` on the anonymous value/language struct: `@value`
is always written, `@language` is omitted when empty. -/
def marshalLangObject (value language : GoString) : JSON :=
  .obj (("@value", marshalString value) ::
    (if language = [] then [] else [("@language", marshalString language)]))

/-! ## IDRef -/

abbrev NodeID := String

/-- The type `IDRef`: the raw, not yet interpreted JSON of a reference. -/
structure IDRef where
  Value : JSON

/-- The method `IDRef.GetIDs`: single object, then array of objects, then
array of strings.  The returned slice is given by its elements. -/
def IDRef.GetIDs (idr : IDRef) : Except Err (List NodeID) :=
  match unmarshalIDObject idr.Value with
  | some singleID => .ok [singleID]
  | none =>
    match unmarshalIDObjects idr.Value with
    | some objects => .ok objects
    | none =>
      match unmarshalStrings idr.Value with
      | some stringArray => .ok (stringArray.getD [])
      | none => .error .invalidIDRef

/-! ## StringOrArray -/

/-- The type `StringOrArray`; `Values = none` is the nil slice. -/
structure StringOrArray where
  Values : Option (List GoString) := none

/-- The method `StringOrArray.UnmarshalJSON` on receiver `sa`. -/
def StringOrArray.UnmarshalJSON (sa : StringOrArray) (data : JSON) :
    Except Err StringOrArray :=
  match unmarshalString "" data with
  | some singleString => .ok { sa with Values := some [GoString.ofString singleString] }
  | none =>
    match unmarshalStrings data with
    | some stringArray =>
      .ok { sa with Values := stringArray.map fun xs => xs.map GoString.ofString }
    | none => .error (.stringOrArray data)

/-- The method `StringOrArray.MarshalJSON` (its error is always nil). -/
def StringOrArray.MarshalJSON (sa : StringOrArray) : JSON :=
  match sa.Values with
  | some [v] => marshalString v
  | vs => marshalStrings vs

/-! ## LanguageString -/

/-- The type `LanguageString`. -/
structure LanguageString where
  Value : GoString := []
  Language : GoString := []

/-- The method `LanguageString.UnmarshalJSON` on receiver `ls`. -/
def LanguageString.UnmarshalJSON (ls : LanguageString) (data : JSON) :
    Except Err LanguageString :=
  match unmarshalString "" data with
  | some simpleString => .ok { ls with Value := GoString.ofString simpleString }
  | none =>
    match unmarshalLangObject data with
    | some obj =>
      .ok { ls with Value := GoString.ofString obj.1, Language := GoString.ofString obj.2 }
    | none => .error (.languageString data)

/-- The method `LanguageString.MarshalJSON` (its error is always nil). -/
def LanguageString.MarshalJSON (ls : LanguageString) : JSON :=
  if ls.Language = [] then marshalString ls.Value
  else marshalLangObject ls.Value ls.Language

/-! ## The graph and `Parse` -/

/-- The type `SchemaGraphNode`.  A nil `*IDRef` is `none`.  The unexported back
pointer `so` is never read by the code modelled here and is left out; `Childs`
is given by its elements (the code only ranges over it, searches it and appends
to it, which a nil and an empty slice treat alike). -/
structure SchemaGraphNode where
  ID : NodeID
  Type' : StringOrArray := {}
  RdfsComment : LanguageString := {}
  RdfsLabel : LanguageString := {}
  SchemaInverseOf : Option IDRef := none
  SchemaSupersededBy : Option IDRef := none
  RdfsSubPropertyOf : Option IDRef := none
  SchemaDomainIncludes : Option IDRef := none
  SchemaRangeIncludes : Option IDRef := none
  RdfsSubClassOf : Option IDRef := none
  Childs : List NodeID := []

/-- The map `nodeMap`: a `*SchemaGraphNode` is the position of the node in
`Graph`; a key is bound at most once. -/
abbrev NodeMap := List (NodeID × Nat)

/-- Go map read `m[id]`: `none` is the nil pointer returned for a missing key. -/
def NodeMap.find : NodeMap → NodeID → Option Nat
  | [], _ => none
  | (k, v) :: m, id => if k = id then some v else NodeMap.find m id

/-- Go map write `m[id] = p`: a bound key is overwritten. -/
def NodeMap.insert : NodeMap → NodeID → Nat → NodeMap
  | [], id, p => [(id, p)]
  | (k, v) :: m, id, p =>
    if k = id then (k, p) :: m else (k, v) :: NodeMap.insert m id p

/-- The type `SchemaOrg` once every pointer of `Graph` is known to be non-nil.
The `@context` record is carried through untouched and is left out. -/
structure SchemaOrg where
  ExpandedCounter : Int := 0
  Graph : List SchemaGraphNode
  nodeMap : NodeMap

/-- Outcome of a call: a returned value with a nil error, a returned error
(with a nil value), or a run-time panic (nil pointer dereference). -/
inductive Result (α : Type) where
  | ok (a : α)
  | err (e : Err)
  | panic

/-- Sequencing of outcomes. -/
def Result.bind {α β : Type} : Result α → (α → Result β) → Result β
  | .ok a, f => f a
  | .err e, _ => .err e
  | .panic, _ => .panic

/-- Dereference every pointer of the decoded `Graph`; `none` when one is nil. -/
def derefAll : List (Option SchemaGraphNode) → Option (List SchemaGraphNode)
  | [] => some []
  | none :: _ => none
  | some n :: rest => (derefAll rest).map (fun ns => n :: ns)

/-- Lines 386-389: `data.nodeMap[node.ID] = node` for the nodes from position
`k` on. -/
def indexFrom : Nat → List SchemaGraphNode → NodeMap → NodeMap
  | _, [], m => m
  | k, n :: rest, m => indexFrom (k + 1) rest (NodeMap.insert m n.ID k)

/-- The `Childs` of the node at position `i`. -/
def childsAt (g : List SchemaGraphNode) (i : Nat) : List NodeID :=
  match g[i]? with
  | some n => n.Childs
  | none => []

/-- The assignment `p.Childs = append(p.Childs, c)` for the node at position
`i`. -/
def appendChild : List SchemaGraphNode → Nat → NodeID → List SchemaGraphNode
  | [], _, _ => []
  | n :: rest, 0, c => { n with Childs := n.Childs ++ [c] } :: rest
  | n :: rest, i + 1, c => n :: appendChild rest i c

/-- Lines 398-410 and 418-430: for each listed identifier bound in the index,
the identifier `nodeID` of the current node is appended to the target's `Childs`
unless already there. -/
def linkTargets (nodeMap : NodeMap) (nodeID : NodeID) :
    List NodeID → List SchemaGraphNode → List SchemaGraphNode
  | [], g => g
  | id :: ids, g =>
    match nodeMap.find id with
    | none => linkTargets nodeMap nodeID ids g
    | some t =>
      if (childsAt g t).contains nodeID then linkTargets nodeMap nodeID ids g
      else linkTargets nodeMap nodeID ids (appendChild g t nodeID)

/-- Lines 438-446: for each listed identifier, `id` is appended to the `Childs`
of the current node (position `k`) unless `data.nodeMap[id].Childs` contains
`id`; reading `.Childs` through a nil `data.nodeMap[id]` panics. -/
def rangeTargets (nodeMap : NodeMap) (k : Nat) :
    List NodeID → List SchemaGraphNode → Result (List SchemaGraphNode)
  | [], g => .ok g
  | id :: ids, g =>
    match nodeMap.find id with
    | none => .panic
    | some t =>
      if (childsAt g t).contains id then rangeTargets nodeMap k ids g
      else rangeTargets nodeMap k ids (appendChild g k id)

/-- Lines 462-466: every element of the ranged-over slice that the current
node (position `k`) lacks is appended to its `Childs`. -/
def copyChilds (k : Nat) : List NodeID → List SchemaGraphNode → List SchemaGraphNode
  | [], g => g
  | child :: rest, g =>
    if (childsAt g k).contains child then copyChilds k rest g
    else copyChilds k rest (appendChild g k child)

/-- Lines 457-467: for each listed superclass, the slice
`data.nodeMap[id].Childs` (evaluated once, on entry of the inner loop) is
copied into the current node; a nil `data.nodeMap[id]` panics. -/
def inheritTargets (nodeMap : NodeMap) (k : Nat) :
    List NodeID → List SchemaGraphNode → Result (List SchemaGraphNode)
  | [], g => .ok g
  | id :: ids, g =>
    match nodeMap.find id with
    | none => .panic
    | some t => inheritTargets nodeMap k ids (copyChilds k (childsAt g t) g)

/-- The pattern `if ref != nil { ids, err := ref.GetIDs(); if err != nil
{ return nil, err }; ... }`. -/
def withIDs (ref : Option IDRef) (g : List SchemaGraphNode)
    (body : List NodeID → Result (List SchemaGraphNode)) : Result (List SchemaGraphNode) :=
  match ref with
  | none => .ok g
  | some r =>
    match r.GetIDs with
    | .error e => .err e
    | .ok ids => body ids

/-- Lines 392-447: the body of the first loop for the node at position `k`. -/
def firstLoopBody (nodeMap : NodeMap) (g : List SchemaGraphNode) (k : Nat) :
    Result (List SchemaGraphNode) :=
  match g[k]? with
  | none => .ok g
  | some node =>
    (withIDs node.RdfsSubPropertyOf g
      (fun ids => .ok (linkTargets nodeMap node.ID ids g))).bind fun g1 =>
    (withIDs node.SchemaDomainIncludes g1
      (fun ids => .ok (linkTargets nodeMap node.ID ids g1))).bind fun g2 =>
    withIDs node.SchemaRangeIncludes g2 (fun ids => rangeTargets nodeMap k ids g2)

/-- Lines 451-468: the body of the second loop for the node at position `k`. -/
def secondLoopBody (nodeMap : NodeMap) (g : List SchemaGraphNode) (k : Nat) :
    Result (List SchemaGraphNode) :=
  match g[k]? with
  | none => .ok g
  | some node => withIDs node.RdfsSubClassOf g (fun ids => inheritTargets nodeMap k ids g)

/-- The loop `for _, node := range data.Graph` over the positions `ks`, leaving
at the first error or panic. -/
def forNodes (body : List SchemaGraphNode → Nat → Result (List SchemaGraphNode)) :
    List Nat → List SchemaGraphNode → Result (List SchemaGraphNode)
  | [], g => .ok g
  | k :: ks, g => (body g k).bind (forNodes body ks)

/-- Lines 391-448: the first loop of `Parse`. -/
def firstLoop (nodeMap : NodeMap) (nodes : List SchemaGraphNode) :
    Result (List SchemaGraphNode) :=
  forNodes (firstLoopBody nodeMap) (List.range nodes.length) nodes

/-- Lines 450-469: the second loop of `Parse`. -/
def secondLoop (nodeMap : NodeMap) (g : List SchemaGraphNode) :
    Result (List SchemaGraphNode) :=
  forNodes (secondLoopBody nodeMap) (List.range g.length) g

/-- The function `Parse`, from the decoded document on (lines 386-471):
`graph` is the decoded `data.Graph`, whose pointers may be nil. -/
def Parse (graph : List (Option SchemaGraphNode)) : Result SchemaOrg :=
  match derefAll graph with
  | none => .panic
  | some nodes =>
    let nodeMap := indexFrom 0 nodes []
    ((firstLoop nodeMap nodes).bind (secondLoop nodeMap)).bind fun g =>
      .ok { Graph := g, nodeMap := nodeMap }

/-- The `Childs` lists of the returned graph, in graph order. -/
def Result.childs : Result SchemaOrg → Option (List (List NodeID))
  | .ok so => some (so.Graph.map (fun n => n.Childs))
  | _ => none

/-! ## Documented and accepted reference shapes -/

/-- A JSON string. -/
def isString : JSON → Bool
  | .str _ => true
  | _ => false

/-- A JSON string or `null`. -/
def stringOrNull : JSON → Bool
  | .str _ => true
  | .null => true
  | _ => false

/-- An object containing an `@id` key with a string value. -/
def hasStringID : JSON → Bool
  | .obj ms => ms.any fun m => m.1 == "@id" && isString m.2
  | _ => false

/-- The three shapes the reference decoder documents: a single object
containing an `@id` key with a string value, an array of such objects, an array
of bare identifier strings. -/
def documentedShape : JSON → Bool
  | .obj ms => hasStringID (.obj ms)
  | .arr xs => xs.all hasStringID || xs.all isString
  | _ => false

/-- What the single-object attempt of `GetIDs` lets through: `null`, or an
object in which every member selecting the `@id` field holds a string or
`null`. -/
def lenientIDObject : JSON → Bool
  | .null => true
  | .obj ms => ms.all fun m => !matchesField m.1 "@id" || stringOrNull m.2
  | _ => false

/-- The raw values on which `GetIDs` succeeds. -/
def accepted : JSON → Bool
  | .arr xs => xs.all lenientIDObject || xs.all stringOrNull
  | v => lenientIDObject v

/-- The `Childs` lists of a graph state reached inside `Parse`. -/
def Result.graphChilds : Result (List SchemaGraphNode) → Option (List (List NodeID))
  | .ok g => some (g.map (fun n => n.Childs))
  | _ => none

/-- A node with its `Childs` erased: what `Parse` never assigns. -/
def core (n : SchemaGraphNode) : SchemaGraphNode := { n with Childs := [] }

/-- The state `g2` comes from `g1` by appending to `Childs` lists only. -/
def Grows (g1 g2 : List SchemaGraphNode) : Prop :=
  g2.map core = g1.map core ∧ ∀ i, childsAt g1 i <+: childsAt g2 i

/-! ## Names and declarations -/

/-- Trailing slashes removed, as `path.Base` does first. -/
def dropTrailingSlashes (p : List Char) : List Char :=
  (p.reverse.dropWhile (fun c => c == '/')).reverse

/-- The text after the last slash (the whole text when there is none). -/
def afterLastSlash (p : List Char) : List Char :=
  (p.reverse.takeWhile (fun c => c != '/')).reverse

/-- The library function `path.Base`: `.` for the empty path, trailing
slashes dropped, then the last element, `/` when nothing is left.  (A slash is
one byte and occurs in no multi-byte sequence, so characters do as bytes.) -/
def pathBase (path : String) : String :=
  if path.data = [] then "."
  else if afterLastSlash (dropTrailingSlashes path.data) = [] then "/"
  else String.mk (afterLastSlash (dropTrailingSlashes path.data))

/-- Splitting at every occurrence of `sep`; one more piece than separators. -/
def splitChars (sep : Char) : List Char → List (List Char)
  | [] => [[]]
  | c :: cs =>
    if c = sep then [] :: splitChars sep cs
    else
      match splitChars sep cs with
      | [] => [[c]]
      | p :: ps => (c :: p) :: ps

/-- The call `strings.Split(s, ":")`. -/
def stringsSplitColon (s : String) : List String :=
  (splitChars ':' s.data).map String.mk

/-- The call `strings.Join(parts, "")`. -/
def joinStrings : List String → String
  | [] => ""
  | s :: ss => s ++ joinStrings ss

/-- A Go string of one byte, as the slice expression `keyword[:1]` yields: an
ASCII character, or the first byte of a multi-byte character, which on its own
is not valid UTF-8. -/
inductive OneByte where
  | ascii (c : Char)
  | lead

/-- The slice expression `keyword[:1]`; `none` is the run-time panic "slice
bounds out of range" on an empty string. -/
def sliceFirstByte (keyword : String) : Option OneByte :=
  match keyword.data with
  | [] => none
  | c :: _ => if c.toNat < 128 then some (.ascii c) else some .lead

/-- The function `isLower`, that is `strings.ToLower(s) == s`, on the one-byte
strings it is called with.  `strings.ToLower` changes an ASCII byte only when
it is an upper-case letter, and rewrites a byte that is not valid UTF-8 to
U+FFFD, so that the comparison fails on it. -/
def isLower : OneByte → Bool
  | .ascii c => c.toLower == c
  | .lead => false

/-- Lines 245-251: the loop of `ToKebab` over the parts; `ToPascal` is the
library function `strcase.ToPascal`. -/
def kebabParts (ToPascal : String → String) : List String → Result (List String)
  | [] => .ok []
  | keyword :: rest =>
    match sliceFirstByte keyword with
    | none => .panic
    | some first =>
      (kebabParts ToPascal rest).bind fun typeNameParts =>
        .ok ((if isLower first && keyword != "schema" then "Prop" ++ ToPascal keyword
          else ToPascal keyword) :: typeNameParts)

/-- The method `NodeID.ToKebab`. -/
def NodeID.ToKebab (ToPascal : String → String) (nid : NodeID) : Result String :=
  (kebabParts ToPascal (stringsSplitColon (pathBase nid))).bind fun typeNameParts =>
    .ok (joinStrings typeNameParts)

/-- The type `ast.Field` with one name, an identifier as type and a tag. -/
structure ast.Field where
  Names : List String
  Type' : String
  Tag : String

/-- The type `ast.TypeSpec` of a struct type: its name and its field list. -/
structure ast.TypeSpec where
  Name : String
  Fields : List ast.Field

/-- The type `ast.GenDecl`: the text of the doc comment, the token and the
specs. -/
structure ast.GenDecl where
  Doc : GoString
  Tok : String
  Specs : List ast.TypeSpec

/-- The type `ast.File`. -/
structure ast.File where
  Name : String
  Decls : List ast.GenDecl

/-- The call `strings.ReplaceAll(s, "\n", "\n//")`. -/
def replaceNewlines : GoString → GoString
  | [] => []
  | .char c :: cs =>
    if c = '\n' then .char '\n' :: .char '/' :: .char '/' :: replaceNewlines cs
    else .char c :: replaceNewlines cs
  | .byte b :: cs => .byte b :: replaceNewlines cs

/-- Lines 326-343: the two fields every declaration starts with. -/
def headerFields : List ast.Field :=
  [{ Names := ["Context"], Type' := "string", Tag := "`json:\"@context\"`" },
    { Names := ["Type"], Type' := "string", Tag := "`json:\"@type\"`" }]

/-- Lines 346-354: the field of one child, `kebabID` being its name. -/
def childField (kebabID : String) (child : NodeID) : ast.Field :=
  { Names := [kebabID], Type' := "[]*" ++ kebabID, Tag := "`json:\"" ++ child ++ "\"`" }

/-- Lines 345-355: the fields of the children, in order. -/
def childFields (ToPascal : String → String) : List NodeID → Result (List ast.Field)
  | [] => .ok []
  | child :: rest =>
    (NodeID.ToKebab ToPascal child).bind fun kebabID =>
      (childFields ToPascal rest).bind fun fields => .ok (childField kebabID child :: fields)

/-- The method `SchemaGraphNode.GenDecl`. -/
def SchemaGraphNode.GenDecl (ToPascal : String → String) (node : SchemaGraphNode) :
    Result ast.GenDecl :=
  (NodeID.ToKebab ToPascal node.ID).bind fun typeName =>
    (childFields ToPascal node.Childs).bind fun fields =>
      .ok { Doc := GoString.ofString "// " ++ replaceNewlines node.RdfsComment.Value,
            Tok := "type",
            Specs := [{ Name := typeName, Fields := headerFields ++ fields }] }

/-- Lines 313-315: one declaration per entry of the map, `order` being the
entries in the order in which the run time ranges over `so.nodeMap` (a
permutation of the map that Go leaves unspecified); an entry is a pointer to
the node at its position. -/
def genDecls (ToPascal : String → String) (g : List SchemaGraphNode) :
    List (NodeID × Nat) → Result (List ast.GenDecl)
  | [] => .ok []
  | entry :: rest =>
    match g[entry.2]? with
    | none => .panic
    | some node =>
      (node.GenDecl ToPascal).bind fun decl =>
        (genDecls ToPascal g rest).bind fun decls => .ok (decl :: decls)

/-- The method `SchemaOrg.GenFile`, for a given order of the map iteration. -/
def SchemaOrg.GenFile (ToPascal : String → String) (so : SchemaOrg)
    (order : List (NodeID × Nat)) (ident : String) : Result ast.File :=
  (genDecls ToPascal so.Graph order).bind fun decls => .ok { Name := ident, Decls := decls }

/-- The library function `strcase.ToPascal` on an identifier made of one word
(letters only, none of them upper-case after the first): the first letter is
upper-cased.  Used to evaluate names on concrete identifiers. -/
def pascalWord (s : String) : String :=
  match s.data with
  | [] => ""
  | c :: cs => String.mk (c.toUpper :: cs)

/-- One part of a name as the normalization rule words it: `Prop` is put
before the Pascal-cased part when its first character is a lower-case letter
and the part is not `schema`. -/
def describedPart (ToPascal : String → String) (p : String) : String :=
  match p.data with
  | [] => ToPascal p
  | c :: _ => if c.isLower && p != "schema" then "Prop" ++ ToPascal p else ToPascal p

/-- The name as the normalization rule words it: the parts are those of the
text after the final slash. -/
def describedName (ToPascal : String → String) (nid : NodeID) : String :=
  joinStrings ((splitChars ':' (afterLastSlash nid.data)).map fun p =>
    describedPart ToPascal (String.mk p))

/-- The first character is an ASCII character other than an upper-case
letter: a lower-case letter, a digit, punctuation. -/
def startsUncapitalized (p : String) : Bool :=
  match p.data with
  | [] => false
  | c :: _ => decide (c.toNat < 128) && !c.isUpper

/-- One part of the name `ToKebab` builds. -/
def kebabPart (ToPascal : String → String) (p : String) : String :=
  if startsUncapitalized p && p != "schema" then "Prop" ++ ToPascal p else ToPascal p

/-- The name `ToKebab` returns when it returns. -/
def kebabName (ToPascal : String → String) (nid : NodeID) : String :=
  joinStrings ((stringsSplitColon (pathBase nid)).map (kebabPart ToPascal))

/-- The declaration `GenDecl` returns when it returns. -/
def declOf (ToPascal : String → String) (node : SchemaGraphNode) : ast.GenDecl :=
  { Doc := GoString.ofString "// " ++ replaceNewlines node.RdfsComment.Value,
    Tok := "type",
    Specs := [{ Name := kebabName ToPascal node.ID,
                Fields := headerFields ++
                  node.Childs.map fun c => childField (kebabName ToPascal c) c }] }

/-- The identifiers a reference lists (none for an absent reference). -/
def listedIDs (ref : Option IDRef) : List NodeID :=
  match ref with
  | none => []
  | some r =>
    match r.GetIDs with
    | .ok ids => ids
    | .error _ => []

/-- The subproperty-of or the domain-includes identifier list of `N` contains
the identifier `a`. -/
def namesAsParent (N : SchemaGraphNode) (a : NodeID) : Bool :=
  (listedIDs N.RdfsSubPropertyOf).contains a || (listedIDs N.SchemaDomainIncludes).contains a

/-- A chain of classes, `c` subclass-of `b` subclass-of `a`, and a property
`x` with `a` in its domain; `b` comes before `c`. -/
def chainGraph : List SchemaGraphNode :=
  [{ ID := "a" },
    { ID := "b", RdfsSubClassOf := some ⟨JSON.obj [("@id", JSON.str "a")]⟩ },
    { ID := "c", RdfsSubClassOf := some ⟨JSON.obj [("@id", JSON.str "b")]⟩ },
    { ID := "x", SchemaDomainIncludes := some ⟨JSON.obj [("@id", JSON.str "a")]⟩ }]

/-- The nodes of `chainGraph` with `c` moved before `b`. -/
def chainGraphSwapped : List SchemaGraphNode :=
  [{ ID := "a" },
    { ID := "c", RdfsSubClassOf := some ⟨JSON.obj [("@id", JSON.str "b")]⟩ },
    { ID := "b", RdfsSubClassOf := some ⟨JSON.obj [("@id", JSON.str "a")]⟩ },
    { ID := "x", SchemaDomainIncludes := some ⟨JSON.obj [("@id", JSON.str "a")]⟩ }]

/-! # Theorems -/

/-! ## Lemmas on the decoders -/

theorem unmarshalString_isSome (cur : String) (v : JSON) :
    (unmarshalString cur v).isSome = stringOrNull v := by
  cases v <;> rfl

theorem unmarshalStringItems_isSome (xs : List JSON) :
    (unmarshalStringItems xs).isSome = xs.all stringOrNull := by
  induction xs with
  | nil => rfl
  | cons x xs ih =>
    have hx := unmarshalString_isSome "" x
    simp only [unmarshalStringItems, List.all_cons]
    cases h1 : unmarshalString "" x <;> cases h2 : unmarshalStringItems xs <;>
      simp_all

theorem unmarshalStringItems_map_str (xs : List String) :
    unmarshalStringItems (xs.map JSON.str) = some xs := by
  induction xs with
  | nil => rfl
  | cons x xs ih => simp [unmarshalStringItems, unmarshalString, ih]

theorem unmarshalIDMembers_isSome (ms : List (String × JSON)) (cur : String) :
    (unmarshalIDMembers ms cur).isSome =
      ms.all fun m => !matchesField m.1 "@id" || stringOrNull m.2 := by
  induction ms generalizing cur with
  | nil => rfl
  | cons m ms ih =>
    obtain ⟨k, v⟩ := m
    have hv := unmarshalString_isSome cur v
    simp only [unmarshalIDMembers, List.all_cons]
    by_cases hk : matchesField k "@id" = true
    · cases h1 : unmarshalString cur v <;> simp_all
    · simp_all

theorem unmarshalIDObject_isSome (v : JSON) :
    (unmarshalIDObject v).isSome = lenientIDObject v := by
  cases v <;> first | rfl | exact unmarshalIDMembers_isSome _ _

theorem unmarshalIDObjectItems_isSome (xs : List JSON) :
    (unmarshalIDObjectItems xs).isSome = xs.all lenientIDObject := by
  induction xs with
  | nil => rfl
  | cons x xs ih =>
    have hx := unmarshalIDObject_isSome x
    simp only [unmarshalIDObjectItems, List.all_cons]
    cases h1 : unmarshalIDObject x <;> cases h2 : unmarshalIDObjectItems xs <;>
      simp_all

theorem matchesField_id : matchesField "@id" "@id" = true := by decide
theorem matchesField_value : matchesField "@value" "@value" = true := by decide
theorem matchesField_language_value : matchesField "@language" "@value" = false := by decide
theorem matchesField_language : matchesField "@language" "@language" = true := by decide

theorem unmarshalIDObject_single (x : String) :
    unmarshalIDObject (.obj [("@id", .str x)]) = some x := by
  simp [unmarshalIDObject, unmarshalIDMembers, matchesField_id, unmarshalString]

theorem unmarshalIDObjectItems_map_obj (xs : List String) :
    unmarshalIDObjectItems (xs.map fun x => JSON.obj [("@id", JSON.str x)]) = some xs := by
  induction xs with
  | nil => rfl
  | cons x xs ih => simp [unmarshalIDObjectItems, unmarshalIDObject_single, ih]

theorem unmarshalIDObjectItems_map_str (x : String) (xs : List String) :
    unmarshalIDObjectItems ((x :: xs).map JSON.str) = none := by
  simp [unmarshalIDObjectItems, unmarshalIDObject]

theorem ofString_toValidText (s : GoString) (h : GoString.validUTF8 s = true) :
    GoString.ofString (GoString.toValidText s) = s := by
  induction s with
  | nil => rfl
  | cons p ps ih =>
    simp only [GoString.validUTF8, List.all_cons, Bool.and_eq_true] at h
    have ih2 := ih h.2
    simp only [GoString.ofString, GoString.toValidText, List.map_cons] at ih2 ⊢
    cases p with
    | char c => rw [ih2]
    | byte b => simp at h

/-! ## The decoders (C7 to C10) -/

/-- C7, counterexample: the zero `StringOrArray` (nil `Values`) is printed as
`null`, which is neither a string nor an array, and `null` decodes to the
one-element list holding the empty string; and the one-element list holding
the byte `0xFF`, which is not valid UTF-8, is printed as the JSON string
U+FFFD and decodes to the list holding that character. -/
theorem StringOrArray_roundtrip_fails :
    StringOrArray.MarshalJSON { Values := none } = JSON.null ∧
    StringOrArray.UnmarshalJSON {} (StringOrArray.MarshalJSON { Values := none }) =
      .ok { Values := some [[]] } ∧
    StringOrArray.UnmarshalJSON {}
      (StringOrArray.MarshalJSON { Values := some [[GoPiece.byte 255]] }) =
      .ok { Values := some [[GoPiece.char (Char.ofNat 0xFFFD)]] } ∧
    [GoPiece.char (Char.ofNat 0xFFFD)] ≠ [GoPiece.byte 255] :=
  ⟨rfl, rfl, rfl, by decide⟩

/-- C7, amended: for every `StringOrArray` whose `Values` is a non-nil slice of
valid UTF-8 strings, decoding the output of `MarshalJSON` into a fresh value
succeeds and gives back the same `Values`; the output is a bare JSON string
exactly when there is one element, and the JSON array of the elements
otherwise. -/
theorem StringOrArray_roundtrip (vs : List GoString)
    (hvalid : ∀ s ∈ vs, GoString.validUTF8 s = true) :
    StringOrArray.UnmarshalJSON {} (StringOrArray.MarshalJSON { Values := some vs }) =
      .ok { Values := some vs } ∧
    ((∃ s, StringOrArray.MarshalJSON { Values := some vs } = JSON.str s) ↔ vs.length = 1) ∧
    (vs.length ≠ 1 →
      StringOrArray.MarshalJSON { Values := some vs } =
        JSON.arr (vs.map fun v => JSON.str (GoString.toValidText v))) := by
  have hback : vs.map (fun v => GoString.ofString (GoString.toValidText v)) = vs := by
    have := List.map_congr_left (fun s hs => ofString_toValidText s (hvalid s hs))
      (f := fun v => GoString.ofString (GoString.toValidText v)) (g := id)
    simpa using this
  have hitems : unmarshalStringItems (vs.map marshalString) =
      some (vs.map GoString.toValidText) := by
    have h := unmarshalStringItems_map_str (vs.map GoString.toValidText)
    rw [List.map_map] at h
    exact h
  match vs, hvalid, hback, hitems with
  | [], _, _, _ => exact ⟨rfl, by simp [StringOrArray.MarshalJSON, marshalStrings], fun _ => rfl⟩
  | [v], _, hback, _ =>
    refine ⟨?_, by simp [StringOrArray.MarshalJSON, marshalString], by simp⟩
    simp only [List.map_cons, List.map_nil, List.cons.injEq, and_true] at hback
    simp only [StringOrArray.MarshalJSON, marshalString, StringOrArray.UnmarshalJSON,
      unmarshalString, hback]
  | v :: w :: rest, _, hback, hitems =>
    refine ⟨?_, by simp [StringOrArray.MarshalJSON, marshalStrings], fun _ => rfl⟩
    simp only [StringOrArray.MarshalJSON, marshalStrings, StringOrArray.UnmarshalJSON,
      unmarshalString, unmarshalStrings, hitems, Option.map_some', List.map_map]
    rw [show (GoString.ofString ∘ GoString.toValidText) =
      (fun v => GoString.ofString (GoString.toValidText v)) from rfl, hback]

/-- C7, witness: the two-element list `a`, `b`. -/
theorem StringOrArray_roundtrip_witness :
    StringOrArray.UnmarshalJSON {}
      (StringOrArray.MarshalJSON
        { Values := some [GoString.ofString "a", GoString.ofString "b"] }) =
      .ok { Values := some [GoString.ofString "a", GoString.ofString "b"] } :=
  (StringOrArray_roundtrip [GoString.ofString "a", GoString.ofString "b"] (by decide)).1

/-- C8, counterexample: the `LanguageString` whose value is the byte `0xFF`,
not valid UTF-8, is printed as the JSON string U+FFFD and decodes to that
character, a different value. -/
theorem LanguageString_roundtrip_fails :
    LanguageString.UnmarshalJSON {}
      (LanguageString.MarshalJSON { Value := [GoPiece.byte 255] }) =
      .ok { Value := [GoPiece.char (Char.ofNat 0xFFFD)] } ∧
    [GoPiece.char (Char.ofNat 0xFFFD)] ≠ [GoPiece.byte 255] :=
  ⟨rfl, by decide⟩

/-- C8, amended: for every `LanguageString` whose value and language are valid
UTF-8, decoding the output of `MarshalJSON` into a fresh value succeeds and
gives back the same value and language; the output is a bare JSON string
exactly when the language is empty, and otherwise the object carrying `@value`
and `@language`. -/
theorem LanguageString_roundtrip (v : LanguageString)
    (hv : GoString.validUTF8 v.Value = true) (hl : GoString.validUTF8 v.Language = true) :
    LanguageString.UnmarshalJSON {} v.MarshalJSON = .ok v ∧
    ((∃ s, v.MarshalJSON = JSON.str s) ↔ v.Language = []) ∧
    (v.Language ≠ [] →
      v.MarshalJSON =
        JSON.obj [("@value", JSON.str (GoString.toValidText v.Value)),
          ("@language", JSON.str (GoString.toValidText v.Language))]) := by
  obtain ⟨value, language⟩ := v
  have hvb := ofString_toValidText value hv
  have hlb := ofString_toValidText language hl
  by_cases h : language = []
  · subst h
    refine ⟨?_, by simp [LanguageString.MarshalJSON, marshalString], by simp⟩
    simp only [LanguageString.MarshalJSON, if_true, marshalString, LanguageString.UnmarshalJSON,
      unmarshalString, hvb]
  · refine ⟨?_, ?_, ?_⟩
    · simp [LanguageString.MarshalJSON, h, marshalLangObject, marshalString,
        LanguageString.UnmarshalJSON, unmarshalString, unmarshalLangObject,
        unmarshalLangMembers, matchesField_value, matchesField_language_value,
        matchesField_language, hvb, hlb]
    · simp [LanguageString.MarshalJSON, h, marshalLangObject]
    · intro _
      simp [LanguageString.MarshalJSON, h, marshalLangObject, marshalString]

/-- C8, witness: `hello` in `en`. -/
theorem LanguageString_roundtrip_witness :
    LanguageString.UnmarshalJSON {}
      (LanguageString.MarshalJSON
        { Value := GoString.ofString "hello", Language := GoString.ofString "en" }) =
      .ok { Value := GoString.ofString "hello", Language := GoString.ofString "en" } :=
  (LanguageString_roundtrip
    { Value := GoString.ofString "hello", Language := GoString.ofString "en" }
    (by decide) (by decide)).1

/-- C9: for every list of identifiers, `GetIDs` on the array of `@id` objects
and on the array of bare strings both succeed with that list, in order; and for
one identifier, the single object, the one-object array and the one-string
array all give the one-element list. -/
theorem GetIDs_equivalent_shapes (xs : List NodeID) (x : NodeID) :
    IDRef.GetIDs ⟨JSON.arr (xs.map fun y => JSON.obj [("@id", JSON.str y)])⟩ = .ok xs ∧
    IDRef.GetIDs ⟨JSON.arr (xs.map JSON.str)⟩ = .ok xs ∧
    IDRef.GetIDs ⟨JSON.obj [("@id", JSON.str x)]⟩ = .ok [x] ∧
    IDRef.GetIDs ⟨JSON.arr [JSON.obj [("@id", JSON.str x)]]⟩ = .ok [x] ∧
    IDRef.GetIDs ⟨JSON.arr [JSON.str x]⟩ = .ok [x] := by
  refine ⟨?_, ?_, ?_, ?_, ?_⟩
  · simp [IDRef.GetIDs, unmarshalIDObject, unmarshalIDObjects, unmarshalIDObjectItems_map_obj]
  · cases xs with
    | nil => rfl
    | cons y ys =>
      have h2 := unmarshalIDObjectItems_map_str y ys
      have h3 := unmarshalStringItems_map_str (y :: ys)
      simp only [IDRef.GetIDs, unmarshalIDObject, unmarshalIDObjects, unmarshalStrings, h2, h3,
        Option.map_some', Option.getD_some]
  · simp [IDRef.GetIDs, unmarshalIDObject_single]
  · have h := unmarshalIDObjectItems_map_obj [x]
    simp only [List.map] at h
    simp only [IDRef.GetIDs, unmarshalIDObject, unmarshalIDObjects, h]
  · rfl

/-- C10, counterexample: an object with no `@id` key and `null` are none of the
three documented shapes, yet `GetIDs` succeeds on both, returning the empty
identifier. -/
theorem GetIDs_accepts_undocumented :
    documentedShape (JSON.obj []) = false ∧ IDRef.GetIDs ⟨JSON.obj []⟩ = .ok [""] ∧
    documentedShape JSON.null = false ∧ IDRef.GetIDs ⟨JSON.null⟩ = .ok [""] :=
  ⟨rfl, rfl, rfl, rfl⟩

/-- C10, amended: `GetIDs` succeeds exactly on `null`, on an object in which
every member selecting `@id` (letter case ignored) holds a string or `null`, on
an array of such objects or `null`s, and on an array of strings or `null`s; on
every other raw value it returns the invalid-format error.  In particular a
bare string, a number, a boolean, an object whose `@id` is a number and an
array mixing an object and a string are refused. -/
theorem GetIDs_succeeds_iff (v : JSON) :
    ((∃ ids, IDRef.GetIDs ⟨v⟩ = .ok ids) ↔ accepted v = true) ∧
    (accepted v = false → IDRef.GetIDs ⟨v⟩ = .error .invalidIDRef) ∧
    (∀ s, accepted (JSON.str s) = false) ∧ (∀ n, accepted (JSON.num n) = false) ∧
    (∀ b, accepted (JSON.bool b) = false) ∧
    (∀ n, accepted (JSON.obj [("@id", JSON.num n)]) = false) ∧
    (∀ x y, accepted (JSON.arr [JSON.obj [("@id", JSON.str x)], JSON.str y]) = false) := by
  have key : (accepted v = true → ∃ ids, IDRef.GetIDs ⟨v⟩ = .ok ids) ∧
      (accepted v = false → IDRef.GetIDs ⟨v⟩ = .error .invalidIDRef) := by
    have h1 := unmarshalIDObject_isSome v
    cases v with
    | arr xs =>
      have h2 := unmarshalIDObjectItems_isSome xs
      have h3 := unmarshalStringItems_isSome xs
      simp only [accepted, IDRef.GetIDs, unmarshalIDObject, unmarshalIDObjects, unmarshalStrings]
      cases h4 : unmarshalIDObjectItems xs <;> cases h5 : unmarshalStringItems xs <;>
        simp_all
    | null => exact ⟨fun _ => ⟨_, rfl⟩, fun h => by simp [accepted, lenientIDObject] at h⟩
    | bool b => exact ⟨fun h => by simp [accepted, lenientIDObject] at h, fun _ => rfl⟩
    | num n => exact ⟨fun h => by simp [accepted, lenientIDObject] at h, fun _ => rfl⟩
    | str s => exact ⟨fun h => by simp [accepted, lenientIDObject] at h, fun _ => rfl⟩
    | obj ms =>
      simp only [accepted, IDRef.GetIDs, unmarshalIDObjects, unmarshalStrings]
      cases h4 : unmarshalIDObject (JSON.obj ms) <;> simp_all
  refine ⟨⟨fun ⟨ids, h⟩ => ?_, key.1⟩, key.2, fun _ => rfl, fun _ => rfl, fun _ => rfl, ?_, ?_⟩
  · cases hacc : accepted v
    · rw [key.2 hacc] at h
      cases h
    · rfl
  · intro n
    simp [accepted, lenientIDObject, matchesField_id, stringOrNull]
  · intro x y
    simp [accepted, lenientIDObject, matchesField_id, stringOrNull]

/-! ## Lemmas on the graph state -/

theorem Result.bind_eq_ok {α β : Type} (r : Result α) (f : α → Result β) (b : β) :
    r.bind f = .ok b ↔ ∃ a, r = .ok a ∧ f a = .ok b := by
  cases r <;> simp [Result.bind]

theorem withIDs_eq_ok (ref : Option IDRef) (g g2 : List SchemaGraphNode)
    (body : List NodeID → Result (List SchemaGraphNode)) :
    withIDs ref g body = .ok g2 ↔
      (ref = none ∧ g2 = g) ∨ ∃ r ids, ref = some r ∧ r.GetIDs = .ok ids ∧ body ids = .ok g2 := by
  cases ref with
  | none => simp [withIDs, eq_comm]
  | some r =>
    cases h : r.GetIDs <;> simp [withIDs, h]

theorem appendChild_length (g : List SchemaGraphNode) (t : Nat) (c : NodeID) :
    (appendChild g t c).length = g.length := by
  induction g generalizing t with
  | nil => rfl
  | cons n rest ih => cases t <;> simp [appendChild, ih]

theorem appendChild_map_core (g : List SchemaGraphNode) (t : Nat) (c : NodeID) :
    (appendChild g t c).map core = g.map core := by
  induction g generalizing t with
  | nil => rfl
  | cons n rest ih => cases t <;> simp [appendChild, ih, core]

theorem childsAt_appendChild_ne (g : List SchemaGraphNode) (t i : Nat) (c : NodeID)
    (h : i ≠ t) : childsAt (appendChild g t c) i = childsAt g i := by
  induction g generalizing t i with
  | nil => rfl
  | cons n rest ih =>
    cases t with
    | zero =>
      cases i with
      | zero => exact absurd rfl h
      | succ i => simp [appendChild, childsAt]
    | succ t =>
      cases i with
      | zero => simp [appendChild, childsAt]
      | succ i =>
        have := ih t i (fun e => h (by rw [e]))
        simpa [appendChild, childsAt] using this

theorem childsAt_appendChild_self (g : List SchemaGraphNode) (t : Nat) (c : NodeID)
    (h : t < g.length) : childsAt (appendChild g t c) t = childsAt g t ++ [c] := by
  induction g generalizing t with
  | nil => simp at h
  | cons n rest ih =>
    cases t with
    | zero => simp [appendChild, childsAt]
    | succ t =>
      have := ih t (by simpa using h)
      simpa [appendChild, childsAt] using this

theorem childsAt_appendChild_prefix (g : List SchemaGraphNode) (t i : Nat) (c : NodeID) :
    childsAt g i <+: childsAt (appendChild g t c) i := by
  by_cases h : i = t
  · subst h
    by_cases hl : i < g.length
    · rw [childsAt_appendChild_self g i c hl]
      exact List.prefix_append _ _
    · have h1 : g[i]? = none := List.getElem?_eq_none (by omega)
      simp [childsAt, h1]
  · rw [childsAt_appendChild_ne g t i c h]

theorem Grows.refl (g : List SchemaGraphNode) : Grows g g :=
  ⟨rfl, fun _ => List.prefix_refl _⟩

theorem Grows.trans {g1 g2 g3 : List SchemaGraphNode} (h12 : Grows g1 g2) (h23 : Grows g2 g3) :
    Grows g1 g3 :=
  ⟨h23.1.trans h12.1, fun i => (h12.2 i).trans (h23.2 i)⟩

theorem Grows.length_eq {g1 g2 : List SchemaGraphNode} (h : Grows g1 g2) :
    g2.length = g1.length := by
  simpa using congrArg List.length h.1

theorem Grows.mem {g1 g2 : List SchemaGraphNode} (h : Grows g1 g2) {i : Nat} {c : NodeID}
    (hc : c ∈ childsAt g1 i) : c ∈ childsAt g2 i :=
  (h.2 i).subset hc

theorem Grows.node {g1 g2 : List SchemaGraphNode} (h : Grows g1 g2) {k : Nat}
    {n2 : SchemaGraphNode} (hk : g2[k]? = some n2) :
    ∃ n1, g1[k]? = some n1 ∧ core n2 = core n1 := by
  have h1 : (g2.map core)[k]? = (g1.map core)[k]? := by rw [h.1]
  rw [List.getElem?_map, List.getElem?_map, hk] at h1
  cases h2 : g1[k]? with
  | none => simp [h2] at h1
  | some n1 => exact ⟨n1, rfl, by simpa [h2] using h1⟩

theorem grows_appendChild (g : List SchemaGraphNode) (t : Nat) (c : NodeID) :
    Grows g (appendChild g t c) :=
  ⟨appendChild_map_core g t c, fun i => childsAt_appendChild_prefix g t i c⟩

theorem grows_linkTargets (m : NodeMap) (nodeID : NodeID) (ids : List NodeID)
    (g : List SchemaGraphNode) : Grows g (linkTargets m nodeID ids g) := by
  induction ids generalizing g with
  | nil => exact Grows.refl g
  | cons id ids ih =>
    simp only [linkTargets]
    split
    · exact ih g
    · split
      · exact ih g
      · exact (grows_appendChild g _ nodeID).trans (ih _)

theorem grows_rangeTargets (m : NodeMap) (k : Nat) (ids : List NodeID)
    (g g2 : List SchemaGraphNode) (h : rangeTargets m k ids g = .ok g2) : Grows g g2 := by
  induction ids generalizing g with
  | nil =>
    simp only [rangeTargets, Result.ok.injEq] at h
    exact h ▸ Grows.refl g
  | cons id ids ih =>
    simp only [rangeTargets] at h
    split at h
    · cases h
    · split at h
      · exact ih g h
      · exact (grows_appendChild g k id).trans (ih _ h)

theorem grows_copyChilds (k : Nat) (cs : List NodeID) (g : List SchemaGraphNode) :
    Grows g (copyChilds k cs g) := by
  induction cs generalizing g with
  | nil => exact Grows.refl g
  | cons c cs ih =>
    simp only [copyChilds]
    split
    · exact ih g
    · exact (grows_appendChild g k c).trans (ih _)

theorem grows_inheritTargets (m : NodeMap) (k : Nat) (ids : List NodeID)
    (g g2 : List SchemaGraphNode) (h : inheritTargets m k ids g = .ok g2) : Grows g g2 := by
  induction ids generalizing g with
  | nil =>
    simp only [inheritTargets, Result.ok.injEq] at h
    exact h ▸ Grows.refl g
  | cons id ids ih =>
    simp only [inheritTargets] at h
    split at h
    · cases h
    · exact (grows_copyChilds k _ g).trans (ih _ h)

theorem firstLoopBody_eq_ok (m : NodeMap) (g g4 : List SchemaGraphNode) (k : Nat)
    (node : SchemaGraphNode) (hk : g[k]? = some node) (h : firstLoopBody m g k = .ok g4) :
    ∃ g2 g3,
      withIDs node.RdfsSubPropertyOf g (fun ids => .ok (linkTargets m node.ID ids g)) = .ok g2 ∧
      withIDs node.SchemaDomainIncludes g2 (fun ids => .ok (linkTargets m node.ID ids g2)) =
        .ok g3 ∧
      withIDs node.SchemaRangeIncludes g3 (fun ids => rangeTargets m k ids g3) = .ok g4 := by
  simp only [firstLoopBody, hk, Result.bind_eq_ok] at h
  obtain ⟨g2, h2, g3, h3, h4⟩ := h
  exact ⟨g2, g3, h2, h3, h4⟩

theorem grows_withIDs (ref : Option IDRef) (g g2 : List SchemaGraphNode)
    (body : List NodeID → Result (List SchemaGraphNode))
    (hbody : ∀ ids g3, body ids = .ok g3 → Grows g g3) (h : withIDs ref g body = .ok g2) :
    Grows g g2 := by
  rcases (withIDs_eq_ok ref g g2 body).1 h with ⟨_, h2⟩ | ⟨r, ids, _, _, h2⟩
  · exact h2 ▸ Grows.refl g
  · exact hbody ids g2 h2

theorem grows_link_step (m : NodeMap) (ref : Option IDRef) (nodeID : NodeID)
    (g g2 : List SchemaGraphNode)
    (h : withIDs ref g (fun ids => .ok (linkTargets m nodeID ids g)) = .ok g2) : Grows g g2 := by
  refine grows_withIDs ref g g2 _ (fun ids g3 h3 => ?_) h
  simp only [Result.ok.injEq] at h3
  exact h3 ▸ grows_linkTargets m nodeID ids g

theorem grows_range_step (m : NodeMap) (ref : Option IDRef) (k : Nat)
    (g g2 : List SchemaGraphNode)
    (h : withIDs ref g (fun ids => rangeTargets m k ids g) = .ok g2) : Grows g g2 :=
  grows_withIDs ref g g2 _ (fun ids g3 h3 => grows_rangeTargets m k ids g g3 h3) h

theorem grows_firstLoopBody (m : NodeMap) (g g2 : List SchemaGraphNode) (k : Nat)
    (h : firstLoopBody m g k = .ok g2) : Grows g g2 := by
  cases hk : g[k]? with
  | none =>
    simp only [firstLoopBody, hk, Result.ok.injEq] at h
    exact h ▸ Grows.refl g
  | some node =>
    obtain ⟨a, b, h1, h2, h3⟩ := firstLoopBody_eq_ok m g g2 k node hk h
    exact ((grows_link_step m _ _ _ _ h1).trans (grows_link_step m _ _ _ _ h2)).trans
      (grows_range_step m _ _ _ _ h3)

theorem grows_secondLoopBody (m : NodeMap) (g g2 : List SchemaGraphNode) (k : Nat)
    (h : secondLoopBody m g k = .ok g2) : Grows g g2 := by
  cases hk : g[k]? with
  | none =>
    simp only [secondLoopBody, hk, Result.ok.injEq] at h
    exact h ▸ Grows.refl g
  | some node =>
    simp only [secondLoopBody, hk] at h
    exact grows_withIDs _ g g2 _ (fun ids g3 h3 => grows_inheritTargets m k ids g g3 h3) h

/-! ## Lemmas on the loops -/

theorem forNodes_inv (body : List SchemaGraphNode → Nat → Result (List SchemaGraphNode))
    (Inv : List SchemaGraphNode → Prop)
    (hstep : ∀ g k g2, Inv g → body g k = .ok g2 → Inv g2)
    (ks : List Nat) (g g2 : List SchemaGraphNode) (hg : Inv g)
    (h : forNodes body ks g = .ok g2) : Inv g2 := by
  induction ks generalizing g with
  | nil =>
    simp only [forNodes, Result.ok.injEq] at h
    exact h ▸ hg
  | cons k ks ih =>
    simp only [forNodes, Result.bind_eq_ok] at h
    obtain ⟨g1, h1, h2⟩ := h
    exact ih g1 (hstep g k g1 hg h1) h2

theorem forNodes_reach (body : List SchemaGraphNode → Nat → Result (List SchemaGraphNode))
    (Inv Q : List SchemaGraphNode → Prop) (j : Nat)
    (hstep : ∀ g k g2, Inv g → body g k = .ok g2 → Inv g2)
    (hkeep : ∀ g k g2, Inv g → Q g → body g k = .ok g2 → Q g2)
    (hj : ∀ g g2, Inv g → body g j = .ok g2 → Q g2)
    (ks : List Nat) (g g2 : List SchemaGraphNode) (hmem : j ∈ ks) (hg : Inv g)
    (h : forNodes body ks g = .ok g2) : Q g2 := by
  induction ks generalizing g with
  | nil => cases hmem
  | cons k ks ih =>
    simp only [forNodes, Result.bind_eq_ok] at h
    obtain ⟨g1, h1, h2⟩ := h
    have hg1 := hstep g k g1 hg h1
    by_cases hin : j ∈ ks
    · exact ih g1 hin hg1 h2
    · have hjk : j = k := by
        rcases List.mem_cons.1 hmem with e | e
        · exact e
        · exact absurd e hin
      subst hjk
      have hq : Q g1 := hj g g1 hg h1
      exact (forNodes_inv body (fun x => Inv x ∧ Q x)
        (fun a b c ha hb => ⟨hstep a b c ha.1 hb, hkeep a b c ha.1 ha.2 hb⟩) ks g1 g2
        ⟨hg1, hq⟩ h2).2

theorem forNodes_ran (body : List SchemaGraphNode → Nat → Result (List SchemaGraphNode))
    (Inv : List SchemaGraphNode → Prop) (j : Nat)
    (hstep : ∀ g k g2, Inv g → body g k = .ok g2 → Inv g2)
    (ks : List Nat) (g g2 : List SchemaGraphNode) (hmem : j ∈ ks) (hg : Inv g)
    (h : forNodes body ks g = .ok g2) : ∃ a b, Inv a ∧ body a j = .ok b := by
  induction ks generalizing g with
  | nil => cases hmem
  | cons k ks ih =>
    simp only [forNodes, Result.bind_eq_ok] at h
    obtain ⟨g1, h1, h2⟩ := h
    rcases List.mem_cons.1 hmem with e | e
    · subst e
      exact ⟨g, g1, hg, h1⟩
    · exact ih g1 e (hstep g k g1 hg h1) h2

theorem grows_firstLoop (m : NodeMap) (nodes g : List SchemaGraphNode)
    (h : firstLoop m nodes = .ok g) : Grows nodes g :=
  forNodes_inv (firstLoopBody m) (Grows nodes)
    (fun _ k _ ha hb => ha.trans (grows_firstLoopBody m _ _ k hb)) _ nodes g (Grows.refl nodes) h

theorem grows_secondLoop (m : NodeMap) (g g2 : List SchemaGraphNode)
    (h : secondLoop m g = .ok g2) : Grows g g2 :=
  forNodes_inv (secondLoopBody m) (Grows g)
    (fun _ k _ ha hb => ha.trans (grows_secondLoopBody m _ _ k hb)) _ g g2 (Grows.refl g) h

/-! ## Lemmas on the index and on `Parse` -/

theorem derefAll_map_some (nodes : List SchemaGraphNode) :
    derefAll (nodes.map some) = some nodes := by
  induction nodes with
  | nil => rfl
  | cons n rest ih => simp [derefAll, ih]

theorem derefAll_eq_some (graph : List (Option SchemaGraphNode)) (nodes : List SchemaGraphNode)
    (h : derefAll graph = some nodes) : graph = nodes.map some := by
  induction graph generalizing nodes with
  | nil =>
    simp only [derefAll, Option.some.injEq] at h
    subst h
    rfl
  | cons x rest ih =>
    cases x with
    | none => simp [derefAll] at h
    | some n =>
      simp only [derefAll, Option.map_eq_some'] at h
      obtain ⟨ns, h1, h2⟩ := h
      subst h2
      simp [ih ns h1]

theorem Parse_eq_ok (nodes : List SchemaGraphNode) (so : SchemaOrg)
    (h : Parse (nodes.map some) = .ok so) :
    so.nodeMap = indexFrom 0 nodes [] ∧
    ∃ g1, firstLoop (indexFrom 0 nodes []) nodes = .ok g1 ∧
      secondLoop (indexFrom 0 nodes []) g1 = .ok so.Graph := by
  simp only [Parse, derefAll_map_some, Result.bind_eq_ok, Result.ok.injEq] at h
  obtain ⟨g2, ⟨g1, h1, h2⟩, h3⟩ := h
  subst h3
  exact ⟨rfl, g1, h1, h2⟩

theorem find_insert (m : NodeMap) (id id2 : NodeID) (p : Nat) :
    (NodeMap.insert m id p).find id2 = if id = id2 then some p else m.find id2 := by
  induction m with
  | nil => simp [NodeMap.insert, NodeMap.find]
  | cons kv m ih =>
    obtain ⟨k, v⟩ := kv
    by_cases hk : k = id
    · subst hk
      by_cases h2 : k = id2 <;> simp [NodeMap.insert, NodeMap.find, h2]
    · by_cases h2 : k = id2
      · subst h2
        have : ¬ id = k := fun e => hk e.symm
        simp [NodeMap.insert, NodeMap.find, hk, this]
      · simp [NodeMap.insert, NodeMap.find, hk, h2, ih]

theorem find_indexFrom_absent (k : Nat) (nodes : List SchemaGraphNode) (m : NodeMap)
    (id : NodeID) (h : ∀ n ∈ nodes, n.ID ≠ id) :
    (indexFrom k nodes m).find id = m.find id := by
  induction nodes generalizing k m with
  | nil => rfl
  | cons n rest ih =>
    simp only [indexFrom]
    rw [ih (k + 1) _ (fun x hx => h x (List.mem_cons_of_mem _ hx)), find_insert]
    simp [h n (List.mem_cons_self _ _)]

theorem find_indexFrom_last (k : Nat) (nodes : List SchemaGraphNode) (m : NodeMap) (i : Nat)
    (A : SchemaGraphNode) (hA : nodes[i]? = some A)
    (hlast : ∀ n ∈ nodes.drop (i + 1), n.ID ≠ A.ID) :
    (indexFrom k nodes m).find A.ID = some (k + i) := by
  induction nodes generalizing k m i with
  | nil => simp at hA
  | cons n rest ih =>
    cases i with
    | zero =>
      simp only [List.getElem?_cons_zero, Option.some.injEq] at hA
      subst hA
      simp only [indexFrom]
      rw [find_indexFrom_absent (k + 1) rest _ n.ID (by simpa using hlast), find_insert]
      simp
    | succ i =>
      simp only [indexFrom]
      rw [ih (k + 1) _ i (by simpa using hA) (by simpa using hlast)]
      congr 1
      omega

/-! ## Inheritance through subclass-of (C3) -/

theorem core_fields {n1 n2 : SchemaGraphNode} (h : core n1 = core n2) :
    n1.ID = n2.ID ∧ n1.RdfsSubPropertyOf = n2.RdfsSubPropertyOf ∧
    n1.SchemaDomainIncludes = n2.SchemaDomainIncludes ∧
    n1.SchemaRangeIncludes = n2.SchemaRangeIncludes ∧
    n1.RdfsSubClassOf = n2.RdfsSubClassOf := by
  cases n1
  cases n2
  simp only [core, SchemaGraphNode.mk.injEq] at h
  simp [h]

theorem lt_length_of_getElem? {g : List SchemaGraphNode} {k : Nat} {n : SchemaGraphNode}
    (h : g[k]? = some n) : k < g.length := by
  by_contra hlt
  rw [List.getElem?_eq_none (by omega)] at h
  cases h

theorem copyChilds_mem (k : Nat) (cs : List NodeID) (g : List SchemaGraphNode)
    (hk : k < g.length) (c : NodeID) (hc : c ∈ cs) : c ∈ childsAt (copyChilds k cs g) k := by
  induction cs generalizing g with
  | nil => cases hc
  | cons x cs ih =>
    simp only [copyChilds]
    rcases List.mem_cons.1 hc with e | e
    · subst e
      split
      · rename_i hin
        exact (grows_copyChilds k cs g).mem (by simpa using hin)
      · refine (grows_copyChilds k cs _).mem ?_
        rw [childsAt_appendChild_self g k c hk]
        simp
    · split
      · exact ih g hk e
      · exact ih _ (by rw [appendChild_length]; exact hk) e

theorem inheritTargets_mem (m : NodeMap) (k i : Nat) (a : NodeID) (ids : List NodeID)
    (g g2 : List SchemaGraphNode) (h : inheritTargets m k ids g = .ok g2) (ha : a ∈ ids)
    (hfind : m.find a = some i) (hk : k < g.length) (c : NodeID) (hc : c ∈ childsAt g i) :
    c ∈ childsAt g2 k := by
  induction ids generalizing g with
  | nil => cases ha
  | cons id ids ih =>
    simp only [inheritTargets] at h
    split at h
    · cases h
    · rename_i t ht
      have hgrow := grows_copyChilds k (childsAt g t) g
      rcases List.mem_cons.1 ha with e | e
      · subst e
        rw [hfind] at ht
        cases ht
        exact (grows_inheritTargets m k ids _ g2 h).mem (copyChilds_mem k _ g hk c hc)
      · exact ih _ h e (by rw [hgrow.length_eq]; exact hk) (hgrow.mem hc)

/-- C3, counterexample: two nodes carry the identifier `a`; the first one has
`c` in its `Childs` once the first loop has finished, `b` is subclass-of `a`,
and `b` ends with no child, since the index binds `a` to the second node. -/
theorem Parse_subclass_of_duplicate :
    (firstLoop
      (indexFrom 0
        [{ ID := "a", SchemaRangeIncludes := some ⟨JSON.obj [("@id", JSON.str "c")]⟩ },
          { ID := "a" }, { ID := "c" },
          { ID := "b", RdfsSubClassOf := some ⟨JSON.obj [("@id", JSON.str "a")]⟩ }] [])
      [{ ID := "a", SchemaRangeIncludes := some ⟨JSON.obj [("@id", JSON.str "c")]⟩ },
        { ID := "a" }, { ID := "c" },
        { ID := "b", RdfsSubClassOf := some ⟨JSON.obj [("@id", JSON.str "a")]⟩ }]).graphChilds =
      some [["c"], [], [], []] ∧
    (Parse
      [some { ID := "a", SchemaRangeIncludes := some ⟨JSON.obj [("@id", JSON.str "c")]⟩ },
        some { ID := "a" }, some { ID := "c" },
        some { ID := "b", RdfsSubClassOf := some ⟨JSON.obj [("@id", JSON.str "a")]⟩ }]).childs =
      some [["c"], [], [], []] :=
  ⟨rfl, rfl⟩

/-- C3, amended: on a graph on which `Parse` succeeds, let `A` be the last
node carrying its identifier (every node is, when identifiers are pairwise
distinct) and let the subclass-of reference of `B` list that identifier.  Every
identifier in the `Childs` of `A` once the first loop has finished is in the
`Childs` of `B` in the returned graph; `B` may be `A` itself and the subclass
relation may be cyclic. -/
theorem Parse_subclass_inherits (nodes g1 : List SchemaGraphNode) (so : SchemaOrg)
    (i j : Nat) (A B : SchemaGraphNode) (r : IDRef) (ids : List NodeID) (c : NodeID)
    (hP : Parse (nodes.map some) = .ok so)
    (h1 : firstLoop (indexFrom 0 nodes []) nodes = .ok g1)
    (hA : nodes[i]? = some A) (hlast : ∀ n ∈ nodes.drop (i + 1), n.ID ≠ A.ID)
    (hB : nodes[j]? = some B) (hr : B.RdfsSubClassOf = some r) (hids : r.GetIDs = .ok ids)
    (hmem : A.ID ∈ ids) (hc : c ∈ childsAt g1 i) : c ∈ childsAt so.Graph j := by
  obtain ⟨_, g1b, h1b, h2⟩ := Parse_eq_ok nodes so hP
  rw [h1] at h1b
  cases h1b
  have hfind : (indexFrom 0 nodes []).find A.ID = some i := by
    simpa using find_indexFrom_last 0 nodes [] i A hA hlast
  have hg1 := grows_firstLoop _ nodes g1 h1
  have hj : j < g1.length := by
    rw [hg1.length_eq]
    exact lt_length_of_getElem? hB
  refine forNodes_reach (secondLoopBody (indexFrom 0 nodes [])) (Grows g1)
    (fun g => c ∈ childsAt g j) j
    (fun _ k _ ha hb => ha.trans (grows_secondLoopBody _ _ _ k hb))
    (fun _ k _ _ hq hb => (grows_secondLoopBody _ _ _ k hb).mem hq)
    (fun g g2 hg hb => ?_) (List.range g1.length) g1 so.Graph (List.mem_range.2 hj)
    (Grows.refl g1) h2
  have hjg : j < g.length := by
    rw [hg.length_eq]
    exact hj
  cases hk : g[j]? with
  | none =>
    rw [List.getElem?_eq_none_iff] at hk
    omega
  | some node =>
    obtain ⟨n1, hn1, hcore⟩ := (hg1.trans hg).node hk
    rw [hB] at hn1
    cases hn1
    have hf := (core_fields hcore).2.2.2.2
    simp only [secondLoopBody, hk, hf, hr, withIDs, hids] at hb
    exact inheritTargets_mem _ j i A.ID ids g g2 hb hmem hfind hjg c (hg.mem hc)

/-- C3, witness: `Employee` is subclass-of `Person`, which got `name` from the
first loop. -/
theorem Parse_subclass_inherits_witness :
    "schema:name" ∈ childsAt
      [{ ID := "schema:Person", Childs := ["schema:name"] },
        { ID := "schema:name",
          SchemaDomainIncludes := some ⟨JSON.obj [("@id", JSON.str "schema:Person")]⟩ },
        { ID := "schema:Employee",
          RdfsSubClassOf := some ⟨JSON.obj [("@id", JSON.str "schema:Person")]⟩,
          Childs := ["schema:name"] }] 2 :=
  Parse_subclass_inherits
    [{ ID := "schema:Person" },
      { ID := "schema:name",
        SchemaDomainIncludes := some ⟨JSON.obj [("@id", JSON.str "schema:Person")]⟩ },
      { ID := "schema:Employee",
        RdfsSubClassOf := some ⟨JSON.obj [("@id", JSON.str "schema:Person")]⟩ }]
    [{ ID := "schema:Person", Childs := ["schema:name"] },
      { ID := "schema:name",
        SchemaDomainIncludes := some ⟨JSON.obj [("@id", JSON.str "schema:Person")]⟩ },
      { ID := "schema:Employee",
        RdfsSubClassOf := some ⟨JSON.obj [("@id", JSON.str "schema:Person")]⟩ }]
    { Graph :=
        [{ ID := "schema:Person", Childs := ["schema:name"] },
          { ID := "schema:name",
            SchemaDomainIncludes := some ⟨JSON.obj [("@id", JSON.str "schema:Person")]⟩ },
          { ID := "schema:Employee",
            RdfsSubClassOf := some ⟨JSON.obj [("@id", JSON.str "schema:Person")]⟩,
            Childs := ["schema:name"] }],
      nodeMap := [("schema:Person", 0), ("schema:name", 1), ("schema:Employee", 2)] }
    0 2 { ID := "schema:Person" }
    { ID := "schema:Employee",
      RdfsSubClassOf := some ⟨JSON.obj [("@id", JSON.str "schema:Person")]⟩ }
    ⟨JSON.obj [("@id", JSON.str "schema:Person")]⟩ ["schema:Person"] "schema:name"
    rfl rfl rfl (by decide) rfl rfl rfl (by decide) (by decide)

/-! ## Parents get their properties (C2) -/

theorem appendChild_of_ge (g : List SchemaGraphNode) (t : Nat) (c : NodeID)
    (h : g.length ≤ t) : appendChild g t c = g := by
  induction g generalizing t with
  | nil => rfl
  | cons n rest ih =>
    cases t with
    | zero => simp at h
    | succ t => simp [appendChild, ih t (by simpa using h)]

theorem count_appendChild_eq (g : List SchemaGraphNode) (t i : Nat) (x b : NodeID)
    (h : t ≠ i ∨ x ≠ b) :
    (childsAt (appendChild g t x) i).count b = (childsAt g i).count b := by
  by_cases hit : i = t
  · subst hit
    have hx : x ≠ b := by
      rcases h with h | h
      · exact absurd rfl h
      · exact h
    by_cases hl : i < g.length
    · rw [childsAt_appendChild_self g i x hl, List.count_append]
      simp [List.count_cons, hx, Ne.symm hx]
    · rw [appendChild_of_ge g i x (by omega)]
  · rw [childsAt_appendChild_ne g t i x hit]

theorem count_appendChild_guarded (g : List SchemaGraphNode) (t i : Nat) (x b : NodeID)
    (hP : (childsAt g i).count b ≤ 1) (hguard : ¬ (childsAt g t).contains x = true) :
    (childsAt (appendChild g t x) i).count b ≤ 1 := by
  by_cases h : t ≠ i ∨ x ≠ b
  · rw [count_appendChild_eq g t i x b h]
    exact hP
  · have ht : t = i := by
      by_contra hne
      exact h (Or.inl hne)
    have hx : x = b := by
      by_contra hne
      exact h (Or.inr hne)
    subst ht
    subst hx
    by_cases hl : t < g.length
    · rw [childsAt_appendChild_self g t x hl, List.count_append]
      have h0 : (childsAt g t).count x = 0 := by
        rw [List.count_eq_zero]
        simpa using hguard
      simp [h0]
    · rw [appendChild_of_ge g t x (by omega)]
      exact hP

theorem linkTargets_mem (m : NodeMap) (b a : NodeID) (i : Nat) (ids : List NodeID)
    (g : List SchemaGraphNode) (ha : a ∈ ids) (hfind : m.find a = some i)
    (hi : i < g.length) : b ∈ childsAt (linkTargets m b ids g) i := by
  induction ids generalizing g with
  | nil => cases ha
  | cons id ids ih =>
    simp only [linkTargets]
    rcases List.mem_cons.1 ha with e | e
    · subst e
      simp only [hfind]
      split
      · rename_i hin
        exact (grows_linkTargets m b ids g).mem (by simpa using hin)
      · refine (grows_linkTargets m b ids _).mem ?_
        rw [childsAt_appendChild_self g i b hi]
        simp
    · split
      · exact ih g e hi
      · split
        · exact ih g e hi
        · exact ih _ e (by rw [appendChild_length]; exact hi)

theorem linkTargets_count (m : NodeMap) (nodeID b : NodeID) (i : Nat) (ids : List NodeID)
    (g : List SchemaGraphNode) (hP : (childsAt g i).count b ≤ 1) :
    (childsAt (linkTargets m nodeID ids g) i).count b ≤ 1 := by
  induction ids generalizing g with
  | nil => exact hP
  | cons id ids ih =>
    simp only [linkTargets]
    split
    · exact ih g hP
    · split
      · exact ih g hP
      · rename_i hguard
        exact ih _ (count_appendChild_guarded g _ i nodeID b hP hguard)

theorem rangeTargets_count (m : NodeMap) (k i : Nat) (b : NodeID) (ids : List NodeID)
    (g g2 : List SchemaGraphNode) (h : rangeTargets m k ids g = .ok g2)
    (hb : k = i → b ∉ ids) : (childsAt g2 i).count b = (childsAt g i).count b := by
  induction ids generalizing g with
  | nil =>
    simp only [rangeTargets, Result.ok.injEq] at h
    rw [h]
  | cons id ids ih =>
    have hb2 : k = i → b ∉ ids := fun e hin => hb e (List.mem_cons_of_mem _ hin)
    simp only [rangeTargets] at h
    split at h
    · cases h
    · split at h
      · exact ih g h hb2
      · rw [ih _ h hb2]
        refine count_appendChild_eq g k i id b ?_
        by_cases hki : k = i
        · exact Or.inr (fun e => hb hki (by simp [e]))
        · exact Or.inl hki

theorem copyChilds_count (k i : Nat) (b : NodeID) (cs : List NodeID)
    (g : List SchemaGraphNode) (hP : (childsAt g i).count b ≤ 1) :
    (childsAt (copyChilds k cs g) i).count b ≤ 1 := by
  induction cs generalizing g with
  | nil => exact hP
  | cons c cs ih =>
    simp only [copyChilds]
    split
    · exact ih g hP
    · rename_i hguard
      exact ih _ (count_appendChild_guarded g k i c b hP hguard)

theorem inheritTargets_count (m : NodeMap) (k i : Nat) (b : NodeID) (ids : List NodeID)
    (g g2 : List SchemaGraphNode) (h : inheritTargets m k ids g = .ok g2)
    (hP : (childsAt g i).count b ≤ 1) : (childsAt g2 i).count b ≤ 1 := by
  induction ids generalizing g with
  | nil =>
    simp only [inheritTargets, Result.ok.injEq] at h
    exact h ▸ hP
  | cons id ids ih =>
    simp only [inheritTargets] at h
    split at h
    · cases h
    · exact ih _ h (copyChilds_count k i b _ g hP)

theorem link_step_count (m : NodeMap) (ref : Option IDRef) (nodeID b : NodeID) (i : Nat)
    (g g2 : List SchemaGraphNode)
    (h : withIDs ref g (fun ids => .ok (linkTargets m nodeID ids g)) = .ok g2)
    (hP : (childsAt g i).count b ≤ 1) : (childsAt g2 i).count b ≤ 1 := by
  rcases (withIDs_eq_ok ref g g2 _).1 h with ⟨_, h2⟩ | ⟨r, ids, _, _, h2⟩
  · exact h2 ▸ hP
  · simp only [Result.ok.injEq] at h2
    exact h2 ▸ linkTargets_count m nodeID b i ids g hP

theorem secondLoopBody_count (m : NodeMap) (k i : Nat) (b : NodeID)
    (g g2 : List SchemaGraphNode) (h : secondLoopBody m g k = .ok g2)
    (hP : (childsAt g i).count b ≤ 1) : (childsAt g2 i).count b ≤ 1 := by
  cases hk : g[k]? with
  | none =>
    simp only [secondLoopBody, hk, Result.ok.injEq] at h
    exact h ▸ hP
  | some node =>
    simp only [secondLoopBody, hk] at h
    rcases (withIDs_eq_ok _ g g2 _).1 h with ⟨_, h2⟩ | ⟨r, ids, _, _, h2⟩
    · exact h2 ▸ hP
    · exact inheritTargets_count m k i b ids g g2 h2 hP

theorem firstLoopBody_count (m : NodeMap) (k i : Nat) (b : NodeID) (A : SchemaGraphNode)
    (nodes g g2 : List SchemaGraphNode) (hA : nodes[i]? = some A)
    (hrange : ∀ r ids, A.SchemaRangeIncludes = some r → r.GetIDs = .ok ids → b ∉ ids)
    (hg : Grows nodes g) (h : firstLoopBody m g k = .ok g2)
    (hP : (childsAt g i).count b ≤ 1) : (childsAt g2 i).count b ≤ 1 := by
  cases hk : g[k]? with
  | none =>
    simp only [firstLoopBody, hk, Result.ok.injEq] at h
    exact h ▸ hP
  | some node =>
    obtain ⟨ga, gb, h1, h2, h3⟩ := firstLoopBody_eq_ok m g g2 k node hk h
    have hPa := link_step_count m _ node.ID b i g ga h1 hP
    have hPb := link_step_count m _ node.ID b i ga gb h2 hPa
    rcases (withIDs_eq_ok _ gb g2 _).1 h3 with ⟨_, h4⟩ | ⟨r, ids, hr, hids, h4⟩
    · exact h4 ▸ hPb
    · rw [rangeTargets_count m k i b ids gb g2 h4 ?_]
      · exact hPb
      · intro hki
        subst hki
        obtain ⟨n1, hn1, hcore⟩ := hg.node hk
        rw [hA] at hn1
        cases hn1
        rw [(core_fields hcore).2.2.2.1] at hr
        exact hrange r ids hr hids

/-- C2, counterexample: two nodes carry the identifier `a` and the
subproperty-of reference of `b` lists `a`; the first `a` node ends with no
child at all, the index binding `a` to the second one. -/
theorem Parse_parent_of_duplicate :
    (Parse
      [some { ID := "a" }, some { ID := "a" },
        some { ID := "b", RdfsSubPropertyOf := some ⟨JSON.obj [("@id", JSON.str "a")]⟩ }]).childs =
      some [[], ["b"], []] :=
  rfl

/-- C2, amended: on a graph on which `Parse` succeeds, let `A` be the last
node carrying its identifier (every node is, when identifiers are pairwise
distinct) and let the subproperty-of or the domain-includes reference of `B`
list that identifier.  Then the `Childs` of `A` in the returned graph contains
the identifier of `B`; and it contains it exactly once when `A` was decoded
with empty `Childs` and the range-includes reference of `A` does not list the
identifier of `B`, whatever the order of the nodes and their other
references. -/
theorem Parse_links_parent (nodes : List SchemaGraphNode) (so : SchemaOrg) (i j : Nat)
    (A B : SchemaGraphNode) (r : IDRef) (ids : List NodeID)
    (hP : Parse (nodes.map some) = .ok so)
    (hA : nodes[i]? = some A) (hlast : ∀ n ∈ nodes.drop (i + 1), n.ID ≠ A.ID)
    (hB : nodes[j]? = some B)
    (hr : B.RdfsSubPropertyOf = some r ∨ B.SchemaDomainIncludes = some r)
    (hids : r.GetIDs = .ok ids) (hmem : A.ID ∈ ids) :
    B.ID ∈ childsAt so.Graph i ∧
    (A.Childs = [] →
      (∀ r2 ids2, A.SchemaRangeIncludes = some r2 → r2.GetIDs = .ok ids2 → B.ID ∉ ids2) →
      (childsAt so.Graph i).count B.ID = 1) := by
  obtain ⟨_, g1, h1, h2⟩ := Parse_eq_ok nodes so hP
  have hfind : (indexFrom 0 nodes []).find A.ID = some i := by
    simpa using find_indexFrom_last 0 nodes [] i A hA hlast
  have hi : i < nodes.length := lt_length_of_getElem? hA
  have hj : j < nodes.length := lt_length_of_getElem? hB
  have hin1 : B.ID ∈ childsAt g1 i := by
    refine forNodes_reach (firstLoopBody (indexFrom 0 nodes [])) (Grows nodes)
      (fun g => B.ID ∈ childsAt g i) j
      (fun _ k _ ha hb => ha.trans (grows_firstLoopBody _ _ _ k hb))
      (fun _ k _ _ hq hb => (grows_firstLoopBody _ _ _ k hb).mem hq)
      (fun g g4 hg hb => ?_) (List.range nodes.length) nodes g1 (List.mem_range.2 hj)
      (Grows.refl nodes) h1
    have hig : i < g.length := by
      rw [hg.length_eq]
      exact hi
    cases hk : g[j]? with
    | none =>
      rw [List.getElem?_eq_none_iff, hg.length_eq] at hk
      omega
    | some node =>
      obtain ⟨n1, hn1, hcore⟩ := hg.node hk
      rw [hB] at hn1
      cases hn1
      obtain ⟨hID, hsp, hdi, _, _⟩ := core_fields hcore
      obtain ⟨g2, g3, e2, e3, e4⟩ := firstLoopBody_eq_ok _ g g4 j node hk hb
      have hg2 := grows_link_step _ _ _ _ _ e2
      have hg3 := grows_link_step _ _ _ _ _ e3
      have hg4 := grows_range_step _ _ _ _ _ e4
      rcases hr with hr | hr
      · simp only [hsp, hr, withIDs, hids, hID, Result.ok.injEq] at e2
        refine (hg3.trans hg4).mem ?_
        rw [← e2]
        exact linkTargets_mem _ B.ID A.ID i ids g hmem hfind hig
      · simp only [hdi, hr, withIDs, hids, hID, Result.ok.injEq] at e3
        refine hg4.mem ?_
        rw [← e3]
        exact linkTargets_mem _ B.ID A.ID i ids g2 hmem hfind
          (by rw [hg2.length_eq]; exact hig)
  have hin : B.ID ∈ childsAt so.Graph i := (grows_secondLoop _ g1 so.Graph h2).mem hin1
  refine ⟨hin, fun hempty hrange => ?_⟩
  have h0 : (childsAt nodes i).count B.ID ≤ 1 := by
    simp [childsAt, hA, hempty]
  have hc1 : (childsAt g1 i).count B.ID ≤ 1 :=
    (forNodes_inv (firstLoopBody (indexFrom 0 nodes []))
      (fun g => Grows nodes g ∧ (childsAt g i).count B.ID ≤ 1)
      (fun g k g4 ha hb => ⟨ha.1.trans (grows_firstLoopBody _ _ _ k hb),
        firstLoopBody_count _ k i B.ID A nodes g g4 hA hrange ha.1 hb ha.2⟩)
      (List.range nodes.length) nodes g1 ⟨Grows.refl nodes, h0⟩ h1).2
  have hc2 : (childsAt so.Graph i).count B.ID ≤ 1 :=
    forNodes_inv (secondLoopBody (indexFrom 0 nodes []))
      (fun g => (childsAt g i).count B.ID ≤ 1)
      (fun g k g4 ha hb => secondLoopBody_count _ k i B.ID g g4 hb ha)
      (List.range g1.length) g1 so.Graph hc1 h2
  have hpos : 0 < (childsAt so.Graph i).count B.ID := List.count_pos_iff.2 hin
  omega

/-- C2, witness: `schema:name` has `schema:Person` in its domain. -/
theorem Parse_links_parent_witness :
    "schema:name" ∈ childsAt
      [{ ID := "schema:Person", Childs := ["schema:name"] },
        { ID := "schema:name",
          SchemaDomainIncludes := some ⟨JSON.obj [("@id", JSON.str "schema:Person")]⟩ }] 0 ∧
    (childsAt
      [{ ID := "schema:Person", Childs := ["schema:name"] },
        { ID := "schema:name",
          SchemaDomainIncludes := some ⟨JSON.obj [("@id", JSON.str "schema:Person")]⟩ }]
      0).count "schema:name" = 1 :=
  have h := Parse_links_parent
    [{ ID := "schema:Person" },
      { ID := "schema:name",
        SchemaDomainIncludes := some ⟨JSON.obj [("@id", JSON.str "schema:Person")]⟩ }]
    { Graph :=
        [{ ID := "schema:Person", Childs := ["schema:name"] },
          { ID := "schema:name",
            SchemaDomainIncludes := some ⟨JSON.obj [("@id", JSON.str "schema:Person")]⟩ }],
      nodeMap := [("schema:Person", 0), ("schema:name", 1)] }
    0 1 { ID := "schema:Person" }
    { ID := "schema:name",
      SchemaDomainIncludes := some ⟨JSON.obj [("@id", JSON.str "schema:Person")]⟩ }
    ⟨JSON.obj [("@id", JSON.str "schema:Person")]⟩ ["schema:Person"]
    rfl rfl (by decide) rfl (Or.inr rfl) rfl (by decide)
  ⟨h.1, h.2 rfl (fun _ _ hnone => by cases hnone)⟩

/-! ## Errors and panics (C1, C6) -/

theorem GetIDs_error (r : IDRef) (e : Err) (h : r.GetIDs = .error e) : e = .invalidIDRef := by
  simp only [IDRef.GetIDs] at h
  split at h
  · cases h
  · split at h
    · cases h
    · split at h
      · cases h
      · cases h
        rfl

theorem Result.bind_eq_err {α β : Type} (r : Result α) (f : α → Result β) (e : Err) :
    r.bind f = .err e ↔ r = .err e ∨ ∃ a, r = .ok a ∧ f a = .err e := by
  cases r <;> simp [Result.bind]

theorem Result.bind_eq_panic {α β : Type} (r : Result α) (f : α → Result β) :
    r.bind f = .panic ↔ r = .panic ∨ ∃ a, r = .ok a ∧ f a = .panic := by
  cases r <;> simp [Result.bind]

theorem withIDs_eq_err (ref : Option IDRef) (g : List SchemaGraphNode)
    (body : List NodeID → Result (List SchemaGraphNode)) (e : Err)
    (h : withIDs ref g body = .err e) : e = .invalidIDRef ∨ ∃ ids, body ids = .err e := by
  cases ref with
  | none => simp [withIDs] at h
  | some r =>
    cases hr : r.GetIDs with
    | error e2 =>
      simp only [withIDs, hr, Result.err.injEq] at h
      exact Or.inl (h ▸ GetIDs_error r e2 hr)
    | ok ids =>
      simp only [withIDs, hr] at h
      exact Or.inr ⟨ids, h⟩

theorem withIDs_eq_panic (ref : Option IDRef) (g : List SchemaGraphNode)
    (body : List NodeID → Result (List SchemaGraphNode)) (h : withIDs ref g body = .panic) :
    ∃ r ids, ref = some r ∧ r.GetIDs = .ok ids ∧ body ids = .panic := by
  cases ref with
  | none => simp [withIDs] at h
  | some r =>
    cases hr : r.GetIDs with
    | error e2 => simp [withIDs, hr] at h
    | ok ids =>
      simp only [withIDs, hr] at h
      exact ⟨r, ids, rfl, hr, h⟩

theorem rangeTargets_ne_err (m : NodeMap) (k : Nat) (ids : List NodeID)
    (g : List SchemaGraphNode) (e : Err) : rangeTargets m k ids g ≠ .err e := by
  induction ids generalizing g with
  | nil => simp [rangeTargets]
  | cons id ids ih =>
    simp only [rangeTargets]
    split
    · simp
    · split
      · exact ih g
      · exact ih _

theorem inheritTargets_ne_err (m : NodeMap) (k : Nat) (ids : List NodeID)
    (g : List SchemaGraphNode) (e : Err) : inheritTargets m k ids g ≠ .err e := by
  induction ids generalizing g with
  | nil => simp [inheritTargets]
  | cons id ids ih =>
    simp only [inheritTargets]
    split
    · simp
    · exact ih _

theorem rangeTargets_ne_panic (m : NodeMap) (k : Nat) (ids : List NodeID)
    (g : List SchemaGraphNode) (hfind : ∀ id ∈ ids, ∃ t, m.find id = some t) :
    rangeTargets m k ids g ≠ .panic := by
  induction ids generalizing g with
  | nil => simp [rangeTargets]
  | cons id ids ih =>
    obtain ⟨t, ht⟩ := hfind id (List.mem_cons_self _ _)
    have hrest : ∀ x ∈ ids, ∃ t, m.find x = some t :=
      fun x hx => hfind x (List.mem_cons_of_mem _ hx)
    simp only [rangeTargets, ht]
    split
    · exact ih g hrest
    · exact ih _ hrest

theorem inheritTargets_ne_panic (m : NodeMap) (k : Nat) (ids : List NodeID)
    (g : List SchemaGraphNode) (hfind : ∀ id ∈ ids, ∃ t, m.find id = some t) :
    inheritTargets m k ids g ≠ .panic := by
  induction ids generalizing g with
  | nil => simp [inheritTargets]
  | cons id ids ih =>
    obtain ⟨t, ht⟩ := hfind id (List.mem_cons_self _ _)
    simp only [inheritTargets, ht]
    exact ih _ (fun x hx => hfind x (List.mem_cons_of_mem _ hx))

theorem firstLoopBody_err (m : NodeMap) (g : List SchemaGraphNode) (k : Nat) (e : Err)
    (h : firstLoopBody m g k = .err e) : e = .invalidIDRef := by
  cases hk : g[k]? with
  | none => simp [firstLoopBody, hk] at h
  | some node =>
    simp only [firstLoopBody, hk, Result.bind_eq_err] at h
    rcases h with h | ⟨g1, _, h | ⟨g2, _, h⟩⟩
    · rcases withIDs_eq_err _ _ _ e h with h | ⟨ids, h⟩
      · exact h
      · cases h
    · rcases withIDs_eq_err _ _ _ e h with h | ⟨ids, h⟩
      · exact h
      · cases h
    · rcases withIDs_eq_err _ _ _ e h with h | ⟨ids, h⟩
      · exact h
      · exact absurd h (rangeTargets_ne_err m k ids g2 e)

theorem secondLoopBody_err (m : NodeMap) (g : List SchemaGraphNode) (k : Nat) (e : Err)
    (h : secondLoopBody m g k = .err e) : e = .invalidIDRef := by
  cases hk : g[k]? with
  | none => simp [secondLoopBody, hk] at h
  | some node =>
    simp only [secondLoopBody, hk] at h
    rcases withIDs_eq_err _ _ _ e h with h | ⟨ids, h⟩
    · exact h
    · exact absurd h (inheritTargets_ne_err m k ids g e)

theorem forNodes_err (body : List SchemaGraphNode → Nat → Result (List SchemaGraphNode))
    (hbody : ∀ g k e, body g k = .err e → e = .invalidIDRef)
    (ks : List Nat) (g : List SchemaGraphNode) (e : Err)
    (h : forNodes body ks g = .err e) : e = .invalidIDRef := by
  induction ks generalizing g with
  | nil => simp [forNodes] at h
  | cons k ks ih =>
    simp only [forNodes, Result.bind_eq_err] at h
    rcases h with h | ⟨g1, _, h⟩
    · exact hbody g k e h
    · exact ih g1 h

theorem forNodes_ne_panic (body : List SchemaGraphNode → Nat → Result (List SchemaGraphNode))
    (Inv : List SchemaGraphNode → Prop)
    (hstep : ∀ g k g2, Inv g → body g k = .ok g2 → Inv g2)
    (hbody : ∀ g k, Inv g → body g k ≠ .panic)
    (ks : List Nat) (g : List SchemaGraphNode) (hg : Inv g) :
    forNodes body ks g ≠ .panic := by
  induction ks generalizing g with
  | nil => simp [forNodes]
  | cons k ks ih =>
    simp only [forNodes, ne_eq, Result.bind_eq_panic, not_or, not_exists, not_and]
    exact ⟨hbody g k hg, fun g1 h1 => ih g1 (hstep g k g1 hg h1)⟩

theorem Parse_err (graph : List (Option SchemaGraphNode)) (e : Err)
    (h : Parse graph = .err e) : e = .invalidIDRef := by
  simp only [Parse] at h
  split at h
  · cases h
  · simp only [Result.bind_eq_err] at h
    rcases h with (h | ⟨g1, _, h⟩) | ⟨g2, _, h⟩
    · exact forNodes_err _ (firstLoopBody_err _) _ _ e h
    · exact forNodes_err _ (secondLoopBody_err _) _ _ e h
    · cases h

theorem mem_of_getElem? {nodes : List SchemaGraphNode} {k : Nat} {n : SchemaGraphNode}
    (h : nodes[k]? = some n) : n ∈ nodes := by
  obtain ⟨hlt, hget⟩ := List.getElem?_eq_some_iff.1 h
  exact hget ▸ List.getElem_mem hlt

theorem find_indexFrom_of_mem (k : Nat) (nodes : List SchemaGraphNode) (m : NodeMap)
    (id : NodeID) (h : ∃ n ∈ nodes, n.ID = id) : ∃ t, (indexFrom k nodes m).find id = some t := by
  induction nodes generalizing k m with
  | nil =>
    obtain ⟨n, hn, _⟩ := h
    cases hn
  | cons n rest ih =>
    by_cases hrest : ∃ x ∈ rest, x.ID = id
    · exact ih (k + 1) _ hrest
    · have habs : ∀ x ∈ rest, x.ID ≠ id := fun x hx e => hrest ⟨x, hx, e⟩
      have hn : n.ID = id := by
        obtain ⟨x, hx, e⟩ := h
        rcases List.mem_cons.1 hx with e2 | e2
        · exact e2 ▸ e
        · exact absurd e (habs x e2)
      refine ⟨k, ?_⟩
      simp only [indexFrom]
      rw [find_indexFrom_absent (k + 1) rest _ id habs, find_insert]
      simp [hn]

theorem firstLoopBody_ne_panic (m : NodeMap) (nodes g : List SchemaGraphNode) (k : Nat)
    (hg : Grows nodes g)
    (hfind : ∀ n r ids, n ∈ nodes → n.SchemaRangeIncludes = some r → r.GetIDs = .ok ids →
      ∀ id ∈ ids, ∃ t, m.find id = some t) :
    firstLoopBody m g k ≠ .panic := by
  cases hk : g[k]? with
  | none => simp [firstLoopBody, hk]
  | some node =>
    obtain ⟨n1, hn1, hcore⟩ := hg.node hk
    intro h
    simp only [firstLoopBody, hk, Result.bind_eq_panic] at h
    rcases h with h | ⟨g1, _, h | ⟨g2, _, h⟩⟩
    · obtain ⟨_, _, _, _, h⟩ := withIDs_eq_panic _ _ _ h
      cases h
    · obtain ⟨_, _, _, _, h⟩ := withIDs_eq_panic _ _ _ h
      cases h
    · obtain ⟨r, ids, href, hids, h⟩ := withIDs_eq_panic _ _ _ h
      rw [(core_fields hcore).2.2.2.1] at href
      exact rangeTargets_ne_panic m k ids g2
        (hfind n1 r ids (mem_of_getElem? hn1) href hids) h

theorem secondLoopBody_ne_panic (m : NodeMap) (nodes g : List SchemaGraphNode) (k : Nat)
    (hg : Grows nodes g)
    (hfind : ∀ n r ids, n ∈ nodes → n.RdfsSubClassOf = some r → r.GetIDs = .ok ids →
      ∀ id ∈ ids, ∃ t, m.find id = some t) :
    secondLoopBody m g k ≠ .panic := by
  cases hk : g[k]? with
  | none => simp [secondLoopBody, hk]
  | some node =>
    obtain ⟨n1, hn1, hcore⟩ := hg.node hk
    intro h
    simp only [secondLoopBody, hk] at h
    obtain ⟨r, ids, href, hids, h⟩ := withIDs_eq_panic _ _ _ h
    rw [(core_fields hcore).2.2.2.2] at href
    exact inheritTargets_ne_panic m k ids g
      (hfind n1 r ids (mem_of_getElem? hn1) href hids) h

theorem derefAll_of_no_nil (graph : List (Option SchemaGraphNode))
    (h : ∀ x ∈ graph, x ≠ none) : ∃ nodes, derefAll graph = some nodes := by
  induction graph with
  | nil => exact ⟨[], rfl⟩
  | cons x rest ih =>
    obtain ⟨ns, hns⟩ := ih (fun y hy => h y (List.mem_cons_of_mem _ hy))
    cases x with
    | none => exact absurd rfl (h none (List.mem_cons_self _ _))
    | some n => exact ⟨n :: ns, by simp [derefAll, hns]⟩

theorem Parse_ne_panic (nodes : List SchemaGraphNode)
    (hknown : ∀ n r ids, n ∈ nodes →
      (n.SchemaRangeIncludes = some r ∨ n.RdfsSubClassOf = some r) → r.GetIDs = .ok ids →
      ∀ id ∈ ids, ∃ n2 ∈ nodes, n2.ID = id) :
    Parse (nodes.map some) ≠ .panic := by
  have hfind : ∀ n r ids, n ∈ nodes →
      (n.SchemaRangeIncludes = some r ∨ n.RdfsSubClassOf = some r) → r.GetIDs = .ok ids →
      ∀ id ∈ ids, ∃ t, (indexFrom 0 nodes []).find id = some t :=
    fun n r ids hn hr hids id hid =>
      find_indexFrom_of_mem 0 nodes [] id (hknown n r ids hn hr hids id hid)
  intro h
  simp only [Parse, derefAll_map_some, Result.bind_eq_panic] at h
  rcases h with (h | ⟨g1, h1, h⟩) | ⟨g2, _, h⟩
  · exact forNodes_ne_panic (firstLoopBody (indexFrom 0 nodes [])) (Grows nodes)
      (fun _ k _ ha hb => ha.trans (grows_firstLoopBody _ _ _ k hb))
      (fun g k hg => firstLoopBody_ne_panic _ nodes g k hg
        (fun n r ids hn hr => hfind n r ids hn (Or.inl hr)))
      _ nodes (Grows.refl nodes) h
  · exact forNodes_ne_panic (secondLoopBody (indexFrom 0 nodes [])) (Grows nodes)
      (fun _ k _ ha hb => ha.trans (grows_secondLoopBody _ _ _ k hb))
      (fun g k hg => secondLoopBody_ne_panic _ nodes g k hg
        (fun n r ids hn hr => hfind n r ids hn (Or.inr hr)))
      _ g1 (grows_firstLoop _ nodes g1 h1) h
  · cases h

theorem Parse_ne_ok_of_invalid (nodes : List SchemaGraphNode) (B : SchemaGraphNode)
    (r : IDRef) (e : Err) (so : SchemaOrg) (hB : B ∈ nodes)
    (hr : B.RdfsSubPropertyOf = some r ∨ B.SchemaDomainIncludes = some r ∨
      B.SchemaRangeIncludes = some r ∨ B.RdfsSubClassOf = some r)
    (hbad : r.GetIDs = .error e) : Parse (nodes.map some) ≠ .ok so := by
  intro hP
  obtain ⟨_, g1, h1, h2⟩ := Parse_eq_ok nodes so hP
  obtain ⟨j, hj⟩ := List.mem_iff_getElem?.1 hB
  have hjl : j < nodes.length := lt_length_of_getElem? hj
  have hg1 := grows_firstLoop _ nodes g1 h1
  have hnode : ∀ a, Grows nodes a → ∃ node, a[j]? = some node ∧ core node = core B := by
    intro a ha
    cases hk : a[j]? with
    | none =>
      rw [List.getElem?_eq_none_iff, ha.length_eq] at hk
      omega
    | some node =>
      obtain ⟨n1, hn1, hcore⟩ := ha.node hk
      rw [hj] at hn1
      cases hn1
      exact ⟨node, rfl, hcore⟩
  have hcontra : ∀ (a b : List SchemaGraphNode)
      (body : List NodeID → Result (List SchemaGraphNode)),
      withIDs (some r) a body ≠ .ok b := by
    intro a b body h
    simp [withIDs, hbad] at h
  by_cases hsub : B.RdfsSubClassOf = some r
  · obtain ⟨a, b, ha, hab⟩ := forNodes_ran (secondLoopBody (indexFrom 0 nodes []))
      (Grows nodes) j (fun _ k _ ha hb => ha.trans (grows_secondLoopBody _ _ _ k hb))
      (List.range g1.length) g1 so.Graph
      (List.mem_range.2 (by rw [hg1.length_eq]; exact hjl)) hg1 h2
    obtain ⟨node, hk, hcore⟩ := hnode a ha
    simp only [secondLoopBody, hk, (core_fields hcore).2.2.2.2, hsub] at hab
    exact hcontra _ _ _ hab
  · obtain ⟨a, b, ha, hab⟩ := forNodes_ran (firstLoopBody (indexFrom 0 nodes []))
      (Grows nodes) j (fun _ k _ ha hb => ha.trans (grows_firstLoopBody _ _ _ k hb))
      (List.range nodes.length) nodes g1 (List.mem_range.2 hjl) (Grows.refl nodes) h1
    obtain ⟨node, hk, hcore⟩ := hnode a ha
    obtain ⟨hID, hsp, hdi, hri, _⟩ := core_fields hcore
    obtain ⟨g2, g3, e2, e3, e4⟩ := firstLoopBody_eq_ok _ a b j node hk hab
    rcases hr with hr | hr | hr | hr
    · rw [hsp, hr] at e2
      exact hcontra _ _ _ e2
    · rw [hdi, hr] at e3
      exact hcontra _ _ _ e3
    · rw [hri, hr] at e4
      exact hcontra _ _ _ e4
    · exact hsub hr

/-- C6, counterexample: the decoded graph holds a nil node before the node
whose subproperty-of reference is a bare string; `Parse` dereferences the nil
node while it builds the index and panics instead of returning the error. -/
theorem Parse_nil_node_before_invalid :
    IDRef.GetIDs ⟨JSON.str "x"⟩ = .error .invalidIDRef ∧
    Parse [none, some { ID := "n", RdfsSubPropertyOf := some ⟨JSON.str "x"⟩ }] = .panic :=
  ⟨rfl, rfl⟩

/-- C6, amended: when `GetIDs` fails on the subproperty-of, domain-includes,
range-includes or subclass-of reference of some node, `Parse` returns no graph:
it returns that error, or it is stopped by a nil dereference met first.  When
the graph has no nil node and every identifier listed by a range-includes or
subclass-of reference is the identifier of a node, `Parse` returns the
error. -/
theorem Parse_invalid_reference (graph : List (Option SchemaGraphNode))
    (B : SchemaGraphNode) (r : IDRef) (e : Err) (hB : some B ∈ graph)
    (hr : B.RdfsSubPropertyOf = some r ∨ B.SchemaDomainIncludes = some r ∨
      B.SchemaRangeIncludes = some r ∨ B.RdfsSubClassOf = some r)
    (hbad : r.GetIDs = .error e) :
    (Parse graph = .err e ∨ Parse graph = .panic) ∧
    ((∀ x ∈ graph, x ≠ none) →
      (∀ n r2 ids, some n ∈ graph →
        (n.SchemaRangeIncludes = some r2 ∨ n.RdfsSubClassOf = some r2) →
        r2.GetIDs = .ok ids → ∀ id ∈ ids, ∃ n2, some n2 ∈ graph ∧ n2.ID = id) →
      Parse graph = .err e) := by
  have he : e = .invalidIDRef := GetIDs_error r e hbad
  have hmain : Parse graph = .err e ∨ Parse graph = .panic := by
    cases hd : derefAll graph with
    | none => exact Or.inr (by simp [Parse, hd])
    | some nodes =>
      have hgraph := derefAll_eq_some graph nodes hd
      subst hgraph
      have hBn : B ∈ nodes := by simpa using hB
      cases hP : Parse (nodes.map some) with
      | ok so => exact absurd hP (Parse_ne_ok_of_invalid nodes B r e so hBn hr hbad)
      | err e2 => exact Or.inl (by rw [he, Parse_err _ e2 hP])
      | panic => exact Or.inr rfl
  refine ⟨hmain, fun hnil hknown => ?_⟩
  obtain ⟨nodes, hd⟩ := derefAll_of_no_nil graph hnil
  have hgraph := derefAll_eq_some graph nodes hd
  subst hgraph
  rcases hmain with h | h
  · exact h
  · refine absurd h (Parse_ne_panic nodes (fun n r2 ids hn hr2 hids id hid => ?_))
    obtain ⟨n2, hn2, hid2⟩ := hknown n r2 ids (by simpa using hn) hr2 hids id hid
    exact ⟨n2, by simpa using hn2, hid2⟩

/-- C6, witness: a single node whose subproperty-of reference is a bare
string. -/
theorem Parse_invalid_reference_witness :
    Parse [some { ID := "n", RdfsSubPropertyOf := some ⟨JSON.str "x"⟩ }] =
      .err .invalidIDRef :=
  (Parse_invalid_reference [some { ID := "n", RdfsSubPropertyOf := some ⟨JSON.str "x"⟩ }]
    { ID := "n", RdfsSubPropertyOf := some ⟨JSON.str "x"⟩ } ⟨JSON.str "x"⟩ .invalidIDRef
    (List.mem_singleton.2 rfl) (Or.inl rfl) rfl).2
    (fun x hx => by
      rw [List.mem_singleton.1 hx]
      exact Option.some_ne_none _)
    (fun n r2 ids hn hr2 => by
      have hn2 := Option.some.inj (List.mem_singleton.1 hn)
      subst hn2
      rcases hr2 with h | h <;> cases h)

/-! ## Defects of the range-includes and subclass-of branches (C1, C4, C5) -/

/-- C1, at the failing inputs: a node whose range-includes reference, or whose
subclass-of reference, lists an identifier `x` that no node carries makes
`Parse` panic, while the same dangling identifier in a subproperty-of or
domain-includes reference is skipped. -/
theorem Parse_dangling_target :
    Parse [some { ID := "n", SchemaRangeIncludes := some ⟨JSON.obj [("@id", JSON.str "x")]⟩ }] =
      .panic ∧
    Parse [some { ID := "n", RdfsSubClassOf := some ⟨JSON.obj [("@id", JSON.str "x")]⟩ }] =
      .panic ∧
    (Parse
      [some { ID := "n", RdfsSubPropertyOf := some ⟨JSON.obj [("@id", JSON.str "x")]⟩ }]).childs =
      some [[]] ∧
    (Parse
      [some { ID := "n", SchemaDomainIncludes := some ⟨JSON.obj [("@id", JSON.str "x")]⟩ }]).childs =
      some [[]] :=
  ⟨rfl, rfl, rfl, rfl⟩

/-- C4, at the failing inputs: with range-includes `[t, t]` the node `n` gets
`t` twice, the membership test reading the `Childs` of `t`, not those of `n`;
and when `t` is its own child, `n` does not get `t` at all. -/
theorem Parse_range_includes_guard :
    (Parse
      [some { ID := "n", SchemaRangeIncludes := some ⟨JSON.arr [JSON.str "t", JSON.str "t"]⟩ },
        some { ID := "t" }]).childs = some [["t", "t"], []] ∧
    (Parse
      [some { ID := "t", RdfsSubPropertyOf := some ⟨JSON.obj [("@id", JSON.str "t")]⟩ },
        some { ID := "n", SchemaRangeIncludes := some ⟨JSON.obj [("@id", JSON.str "t")]⟩ }]).childs =
      some [["t"], []] :=
  ⟨rfl, rfl⟩

/-- C5, at the failing input: `p` has `c` in its domain and `c` has `p` in its
range; the returned `Childs` of `c` holds `p` twice. -/
theorem Parse_childs_with_duplicate :
    (Parse
      [some { ID := "p", SchemaDomainIncludes := some ⟨JSON.obj [("@id", JSON.str "c")]⟩ },
        some { ID := "c", SchemaRangeIncludes := some ⟨JSON.obj [("@id", JSON.str "p")]⟩ }]).childs =
      some [[], ["p", "p"]] :=
  rfl


/-! ## Names (C12, C13, C20) -/

theorem toLower_fix_fin : ∀ n : Fin 128,
    ((Char.ofNat n.val).toLower == Char.ofNat n.val) = !(Char.ofNat n.val).isUpper := by
  decide

theorem toLower_fix (c : Char) (h : c.toNat < 128) : (c.toLower == c) = !c.isUpper := by
  have := toLower_fix_fin ⟨c.toNat, h⟩
  simpa using this

theorem data_eq_nil_iff (s : String) : s.data = [] ↔ s = "" := by
  constructor
  · intro h
    cases s
    simp_all
  · intro h
    subst h
    rfl

theorem mk_ne_empty (l : List Char) : String.mk l ≠ "" ↔ l ≠ [] := by
  rw [ne_eq, ← data_eq_nil_iff]

theorem kebabParts_step (P : String → String) (keyword : String) (rest : List String)
    (h : keyword ≠ "") :
    kebabParts P (keyword :: rest) =
      (kebabParts P rest).bind fun ps => .ok (kebabPart P keyword :: ps) := by
  have hd : keyword.data ≠ [] := fun e => h ((data_eq_nil_iff keyword).1 e)
  cases hk : keyword.data with
  | nil => exact absurd hk hd
  | cons c cs =>
    by_cases hc : c.toNat < 128
    · simp [kebabParts, sliceFirstByte, hk, hc, isLower, kebabPart, startsUncapitalized,
        toLower_fix c hc]
    · simp [kebabParts, sliceFirstByte, hk, hc, isLower, kebabPart, startsUncapitalized]

theorem kebabParts_ok (P : String → String) (parts : List String)
    (h : ∀ p ∈ parts, p ≠ "") : kebabParts P parts = .ok (parts.map (kebabPart P)) := by
  induction parts with
  | nil => rfl
  | cons p ps ih =>
    rw [kebabParts_step P p ps (h p (List.mem_cons_self _ _)),
      ih (fun q hq => h q (List.mem_cons_of_mem _ hq))]
    rfl

theorem kebabParts_panic (P : String → String) (parts : List String)
    (h : ∃ p ∈ parts, p = "") : kebabParts P parts = .panic := by
  induction parts with
  | nil =>
    obtain ⟨p, hp, _⟩ := h
    cases hp
  | cons p ps ih =>
    by_cases hp : p = ""
    · subst hp
      rfl
    · rw [kebabParts_step P p ps hp, ih]
      · rfl
      · obtain ⟨q, hq, hq2⟩ := h
        rcases List.mem_cons.1 hq with e | e
        · exact absurd (e ▸ hq2) hp
        · exact ⟨q, e, hq2⟩

theorem ToKebab_ok (P : String → String) (nid : NodeID)
    (h : ∀ p ∈ stringsSplitColon (pathBase nid), p ≠ "") :
    NodeID.ToKebab P nid = .ok (kebabName P nid) := by
  simp only [NodeID.ToKebab, kebabParts_ok P _ h]
  rfl

theorem ToKebab_panic (P : String → String) (nid : NodeID)
    (h : ∃ p ∈ stringsSplitColon (pathBase nid), p = "") :
    NodeID.ToKebab P nid = .panic := by
  simp only [NodeID.ToKebab, kebabParts_panic P _ h]
  rfl

theorem ToKebab_cases (P : String → String) (nid : NodeID) :
    NodeID.ToKebab P nid = .ok (kebabName P nid) ∨ NodeID.ToKebab P nid = .panic := by
  by_cases h : ∀ p ∈ stringsSplitColon (pathBase nid), p ≠ ""
  · exact Or.inl (ToKebab_ok P nid h)
  · refine Or.inr (ToKebab_panic P nid ?_)
    simpa using h


theorem childFields_ok (P : String → String) (cs : List NodeID)
    (h : ∀ c ∈ cs, ∀ p ∈ stringsSplitColon (pathBase c), p ≠ "") :
    childFields P cs = .ok (cs.map fun c => childField (kebabName P c) c) := by
  induction cs with
  | nil => rfl
  | cons c cs ih =>
    simp only [childFields, ToKebab_ok P c (h c (List.mem_cons_self _ _)),
      ih (fun x hx => h x (List.mem_cons_of_mem _ hx))]
    rfl

theorem childFields_panic (P : String → String) (cs : List NodeID)
    (h : ∃ c ∈ cs, NodeID.ToKebab P c = .panic) : childFields P cs = .panic := by
  induction cs with
  | nil =>
    obtain ⟨c, hc, _⟩ := h
    cases hc
  | cons c cs ih =>
    simp only [childFields]
    rcases ToKebab_cases P c with hc | hc
    · have hrest : ∃ x ∈ cs, NodeID.ToKebab P x = .panic := by
        obtain ⟨x, hx, hx2⟩ := h
        rcases List.mem_cons.1 hx with e | e
        · rw [e, hc] at hx2
          cases hx2
        · exact ⟨x, e, hx2⟩
      rw [hc, ih hrest]
      rfl
    · rw [hc]
      rfl

theorem GenDecl_ok (P : String → String) (node : SchemaGraphNode)
    (hID : ∀ p ∈ stringsSplitColon (pathBase node.ID), p ≠ "")
    (hch : ∀ c ∈ node.Childs, ∀ p ∈ stringsSplitColon (pathBase c), p ≠ "") :
    node.GenDecl P = .ok (declOf P node) := by
  simp only [SchemaGraphNode.GenDecl, ToKebab_ok P node.ID hID, childFields_ok P node.Childs hch]
  rfl

theorem GenDecl_panic (P : String → String) (node : SchemaGraphNode)
    (h : NodeID.ToKebab P node.ID = .panic ∨ ∃ c ∈ node.Childs, NodeID.ToKebab P c = .panic) :
    node.GenDecl P = .panic := by
  simp only [SchemaGraphNode.GenDecl]
  rcases ToKebab_cases P node.ID with hID | hID
  · rcases h with h | h
    · rw [h]
      rfl
    · rw [hID, childFields_panic P node.Childs h]
      rfl
  · rw [hID]
    rfl

theorem GenDecl_cases (P : String → String) (node : SchemaGraphNode) :
    node.GenDecl P = .ok (declOf P node) ∨ node.GenDecl P = .panic := by
  by_cases h : (∀ p ∈ stringsSplitColon (pathBase node.ID), p ≠ "") ∧
      ∀ c ∈ node.Childs, ∀ p ∈ stringsSplitColon (pathBase c), p ≠ ""
  · exact Or.inl (GenDecl_ok P node h.1 h.2)
  · refine Or.inr (GenDecl_panic P node ?_)
    by_cases hID : ∀ p ∈ stringsSplitColon (pathBase node.ID), p ≠ ""
    · right
      have hch : ¬ ∀ c ∈ node.Childs, ∀ p ∈ stringsSplitColon (pathBase c), p ≠ "" :=
        fun hc => h ⟨hID, hc⟩
      simp only [not_forall] at hch
      obtain ⟨c, hc, p, hp, hpe⟩ := hch
      exact ⟨c, hc, ToKebab_panic P c ⟨p, hp, not_not.1 hpe⟩⟩
    · left
      simp only [not_forall] at hID
      obtain ⟨p, hp, hpe⟩ := hID
      exact ToKebab_panic P node.ID ⟨p, hp, not_not.1 hpe⟩

theorem genDecls_panic (P : String → String) (g : List SchemaGraphNode)
    (order : List (NodeID × Nat)) (entry : NodeID × Nat) (node : SchemaGraphNode)
    (hin : entry ∈ order) (hnode : g[entry.2]? = some node) (hp : node.GenDecl P = .panic) :
    genDecls P g order = .panic := by
  induction order with
  | nil => cases hin
  | cons e rest ih =>
    simp only [genDecls]
    cases he : g[e.2]? with
    | none => rfl
    | some n =>
      simp only []
      rcases GenDecl_cases P n with hn | hn
      · rcases List.mem_cons.1 hin with e1 | e1
        · subst e1
          rw [hnode] at he
          cases he
          rw [hp] at hn
          cases hn
        · rw [hn, ih e1]
          rfl
      · rw [hn]
        rfl

/-- C20: `ToKebab` returns a name exactly when every colon-separated part of
the last path segment (`path.Base`) of the identifier is non-empty; with an
empty part, as in `schema:`, `:x` and `a::b`, the one-byte slice of that part
is out of range and the call panics.  `GenDecl` then panics on a node with
such an identifier or child, and `GenFile` on a graph in which it meets such a
node. -/
theorem ToKebab_returns_iff (P : String → String) (nid : NodeID) :
    ((∃ s, NodeID.ToKebab P nid = .ok s) ↔ ∀ p ∈ stringsSplitColon (pathBase nid), p ≠ "") ∧
    ((∃ p ∈ stringsSplitColon (pathBase nid), p = "") → NodeID.ToKebab P nid = .panic) ∧
    NodeID.ToKebab P "schema:" = .panic ∧ NodeID.ToKebab P ":x" = .panic ∧
    NodeID.ToKebab P "a::b" = .panic ∧
    (∀ node : SchemaGraphNode,
      (NodeID.ToKebab P node.ID = .panic ∨ ∃ c ∈ node.Childs, NodeID.ToKebab P c = .panic) →
      node.GenDecl P = .panic) ∧
    (∀ (so : SchemaOrg) (order : List (NodeID × Nat)) (ident : String) (entry : NodeID × Nat)
      (node : SchemaGraphNode), entry ∈ order → so.Graph[entry.2]? = some node →
      node.GenDecl P = .panic → so.GenFile P order ident = .panic) := by
  refine ⟨⟨fun ⟨s, hs⟩ => ?_, fun h => ⟨_, ToKebab_ok P nid h⟩⟩, ToKebab_panic P nid,
    rfl, rfl, rfl, GenDecl_panic P, fun so order ident entry node hin hnode hp => ?_⟩
  · by_contra hcon
    simp only [not_forall] at hcon
    obtain ⟨p, hp, hpe⟩ := hcon
    rw [ToKebab_panic P nid ⟨p, hp, not_not.1 hpe⟩] at hs
    cases hs
  · simp only [SchemaOrg.GenFile, genDecls_panic P so.Graph order entry node hin hnode hp]
    rfl

/-- C12, counterexample: the part `3DModel` starts with a digit and still gets
the `Prop` prefix, which the rule as worded does not give it; and for `a/` the
rule as worded takes the empty text after the final slash, while `ToKebab`
names the segment `a`. -/
theorem ToKebab_differs_from_described :
    (∀ P : String → String,
      NodeID.ToKebab P "schema:3DModel" = .ok (P "schema" ++ ("Prop" ++ P "3DModel"))) ∧
    (∀ P : String → String, describedName P "schema:3DModel" = P "schema" ++ P "3DModel") ∧
    (∀ P : String → String,
      NodeID.ToKebab P "schema:3DModel" ≠ .ok (describedName P "schema:3DModel")) ∧
    (∀ P : String → String, NodeID.ToKebab P "a/" = .ok ("Prop" ++ P "a")) ∧
    (∀ P : String → String, describedName P "a/" = P "") := by
  have h1 : ∀ P : String → String,
      NodeID.ToKebab P "schema:3DModel" = .ok (P "schema" ++ ("Prop" ++ P "3DModel")) := by
    intro P
    have : NodeID.ToKebab P "schema:3DModel" =
        .ok (P "schema" ++ (("Prop" ++ P "3DModel") ++ "")) := rfl
    simpa using this
  have h2 : ∀ P : String → String,
      describedName P "schema:3DModel" = P "schema" ++ P "3DModel" := by
    intro P
    have : describedName P "schema:3DModel" = P "schema" ++ (P "3DModel" ++ "") := rfl
    simpa using this
  refine ⟨h1, h2, fun P h => ?_, fun P => ?_, fun P => ?_⟩
  · rw [h1 P, h2 P, Result.ok.injEq] at h
    have hlen := congrArg String.length h
    simp only [String.length_append] at hlen
    have h4 : "Prop".length = 4 := rfl
    omega
  · have : NodeID.ToKebab P "a/" = .ok (("Prop" ++ P "a") ++ "") := rfl
    simpa using this
  · have : describedName P "a/" = P "" ++ "" := rfl
    simpa using this

/-- C12, amended: when `ToKebab` returns, the name is the concatenation, over
the colon-separated parts `p` of `path.Base` of the identifier (trailing
slashes dropped, `.` for the empty identifier), of `Prop` followed by
`Pascal(p)` when the first character of `p` is an ASCII character other than
an upper-case letter (a lower-case letter, a digit, punctuation) and `p` is not
`schema`, and of `Pascal(p)` alone otherwise (first character an upper-case
ASCII letter or a non-ASCII character, or `p` is `schema`). -/
theorem ToKebab_eq_kebabName (P : String → String) (nid : NodeID) (s : String)
    (h : NodeID.ToKebab P nid = .ok s) :
    s = joinStrings ((stringsSplitColon (pathBase nid)).map fun p =>
      if startsUncapitalized p && p != "schema" then "Prop" ++ P p else P p) := by
  rcases ToKebab_cases P nid with h2 | h2
  · rw [h2, Result.ok.injEq] at h
    exact h ▸ rfl
  · rw [h2] at h
    cases h

/-- C12, witness: `schema:name`. -/
theorem ToKebab_eq_kebabName_witness :
    "SchemaPropName" = joinStrings ((stringsSplitColon (pathBase "schema:name")).map fun p =>
      if startsUncapitalized p && p != "schema" then "Prop" ++ pascalWord p
      else pascalWord p) :=
  ToKebab_eq_kebabName pascalWord "schema:name" "SchemaPropName" rfl


/-- C13, counterexample: the leading part of `schema:name` is lower-case, and
the name starts with the Pascal-cased `schema`, not with `Prop`. -/
theorem ToKebab_schema_name :
    NodeID.ToKebab pascalWord "schema:name" = .ok "SchemaPropName" ∧
    (∀ P : String → String,
      NodeID.ToKebab P "schema:name" = .ok (joinStrings [P "schema", "Prop" ++ P "name"])) :=
  ⟨rfl, fun _ => rfl⟩

/-- C13, amended: `ToKebab` depends on the identifier alone; and when the
parts of the last path segment are non-empty and the first one starts with an
ASCII character other than an upper-case letter and is not the literal
`schema` (as in `name` and `rdfs:label`, not in `schema:name`), `ToKebab`
returns a name that starts with `Prop`. -/
theorem ToKebab_starts_with_Prop (P : String → String) (nid : NodeID) (first : String)
    (rest : List String) (hparts : stringsSplitColon (pathBase nid) = first :: rest)
    (hlow : startsUncapitalized first = true) (hns : first ≠ "schema")
    (hrest : ∀ p ∈ rest, p ≠ "") :
    (∃ t, NodeID.ToKebab P nid = .ok ("Prop" ++ t)) ∧
    (∀ nid2, nid2 = nid → NodeID.ToKebab P nid2 = NodeID.ToKebab P nid) := by
  refine ⟨⟨P first ++ joinStrings (rest.map (kebabPart P)), ?_⟩, fun nid2 h => by rw [h]⟩
  have hfirst : first ≠ "" := by
    intro h
    subst h
    cases hlow
  have hall : ∀ p ∈ stringsSplitColon (pathBase nid), p ≠ "" := by
    intro p hp
    rw [hparts] at hp
    rcases List.mem_cons.1 hp with e | e
    · exact e ▸ hfirst
    · exact hrest p e
  rw [ToKebab_ok P nid hall]
  simp [kebabName, hparts, joinStrings, kebabPart, hlow, hns, String.append_assoc]

/-- C13, witness: `rdfs:label`. -/
theorem ToKebab_starts_with_Prop_witness :
    ∃ t, NodeID.ToKebab pascalWord "rdfs:label" = .ok ("Prop" ++ t) :=
  (ToKebab_starts_with_Prop pascalWord "rdfs:label" "rdfs" ["label"] (by decide) (by decide)
    (by decide) (by decide)).1

/-! ## Declarations (C11, C14) -/

/-- C11, counterexample: on a node whose identifier, or one of whose children,
has an empty part, `GenDecl` panics and returns no declaration. -/
theorem GenDecl_panics_on_empty_part :
    (∀ P : String → String, SchemaGraphNode.GenDecl P { ID := "schema:" } = .panic) ∧
    (∀ P : String → String,
      SchemaGraphNode.GenDecl P { ID := "schema:Person", Childs := [":x"] } = .panic) :=
  ⟨fun _ => rfl, fun _ => rfl⟩

/-- C11, amended: for every node with `Childs = [c1..cn]` such that every
colon-separated part of the last path segment of the node identifier and of
each child is non-empty (so that `ToKebab` returns on them), `GenDecl` returns
one struct type declaration named `ToKebab(node.ID)` with exactly `n+2` fields:
`Context` of type `string`, `Type` of type `string`, then in `Childs` order a
field named `ToKebab(ci)` of type `[]*` followed by `ToKebab(ci)`, tagged with
the raw `ci`.  The declaration `GenDecl` returns for a node whose identifier is
`ci` is named `ToKebab(ci)` as well. -/
theorem GenDecl_fields (P : String → String) (node : SchemaGraphNode)
    (hID : ∀ p ∈ stringsSplitColon (pathBase node.ID), p ≠ "")
    (hch : ∀ c ∈ node.Childs, ∀ p ∈ stringsSplitColon (pathBase c), p ≠ "") :
    NodeID.ToKebab P node.ID = .ok (kebabName P node.ID) ∧
    (∀ c ∈ node.Childs, NodeID.ToKebab P c = .ok (kebabName P c)) ∧
    node.GenDecl P = .ok
      { Doc := GoString.ofString "// " ++ replaceNewlines node.RdfsComment.Value,
        Tok := "type",
        Specs := [{ Name := kebabName P node.ID,
                    Fields :=
                      [{ Names := ["Context"], Type' := "string", Tag := "`json:\"@context\"`" },
                        { Names := ["Type"], Type' := "string", Tag := "`json:\"@type\"`" }] ++
                      node.Childs.map fun c =>
                        { Names := [kebabName P c], Type' := "[]*" ++ kebabName P c,
                          Tag := "`json:\"" ++ c ++ "\"`" } }] } ∧
    (headerFields ++ node.Childs.map fun c => childField (kebabName P c) c).length =
      node.Childs.length + 2 ∧
    (∀ (M : SchemaGraphNode) (d : ast.GenDecl), M.ID ∈ node.Childs → M.GenDecl P = .ok d →
      ∃ fields, d.Specs = [{ Name := kebabName P M.ID, Fields := fields }]) := by
  refine ⟨ToKebab_ok P node.ID hID, fun c hc => ToKebab_ok P c (hch c hc),
    GenDecl_ok P node hID hch, by simp [headerFields], fun M d _ hd => ?_⟩
  rcases GenDecl_cases P M with h | h
  · rw [h, Result.ok.injEq] at hd
    subst hd
    exact ⟨_, rfl⟩
  · rw [h] at hd
    cases hd

/-- C11, witness: `schema:Person` with the child `schema:name`. -/
theorem GenDecl_fields_witness :
    SchemaGraphNode.GenDecl pascalWord { ID := "schema:Person", Childs := ["schema:name"] } =
      .ok { Doc := GoString.ofString "// ", Tok := "type",
            Specs := [{ Name := "SchemaPerson",
                        Fields :=
                          [{ Names := ["Context"], Type' := "string",
                             Tag := "`json:\"@context\"`" },
                            { Names := ["Type"], Type' := "string", Tag := "`json:\"@type\"`" },
                            { Names := ["SchemaPropName"], Type' := "[]*SchemaPropName",
                              Tag := "`json:\"schema:name\"`" }] }] } :=
  (GenDecl_fields pascalWord { ID := "schema:Person", Childs := ["schema:name"] }
    (by decide) (by decide)).2.2.1

/-- C14, counterexample: with the Pascal-cased words `Schema`, `Person` and
`Name`, the declaration of the first node is named `SchemaPerson`, not `Person`,
its third field is `SchemaPropName []*SchemaPropName`, and the declaration of
the second node is named `SchemaPropName`. -/
theorem Person_declaration_name :
    ∃ so n1 n2,
      Parse [some { ID := "schema:Person" },
        some { ID := "schema:name",
               SchemaDomainIncludes := some ⟨JSON.obj [("@id", JSON.str "schema:Person")]⟩ }] =
        .ok so ∧
      so.Graph = [n1, n2] ∧
      n1.GenDecl pascalWord =
        .ok { Doc := GoString.ofString "// ", Tok := "type",
              Specs := [{ Name := "SchemaPerson",
                          Fields := headerFields ++
                            [{ Names := ["SchemaPropName"], Type' := "[]*SchemaPropName",
                               Tag := "`json:\"schema:name\"`" }] }] } ∧
      n2.GenDecl pascalWord =
        .ok { Doc := GoString.ofString "// ", Tok := "type",
              Specs := [{ Name := "SchemaPropName", Fields := headerFields }] } :=
  ⟨_, _, _, rfl, rfl, rfl, rfl⟩

/-- C14, amended: for the graph of `schema:Person` (no relations) and
`schema:name` (domain-includes `schema:Person`), after `Parse` and `GenDecl`
the declaration of the first node is named `Pascal(schema)` followed by
`Pascal(Person)` and has exactly the fields `Context string`, `Type string` and
one field named `Pascal(schema)`, `Prop`, `Pascal(name)`, of type `[]*` and
that name, tagged `schema:name`; the declaration of the second node carries
that name and has only the two header fields. -/
theorem Person_name_declarations (P : String → String) :
    ∃ so n1 n2,
      Parse [some { ID := "schema:Person" },
        some { ID := "schema:name",
               SchemaDomainIncludes := some ⟨JSON.obj [("@id", JSON.str "schema:Person")]⟩ }] =
        .ok so ∧
      so.Graph = [n1, n2] ∧
      n1.GenDecl P =
        .ok { Doc := GoString.ofString "// ", Tok := "type",
              Specs := [{ Name := joinStrings [P "schema", P "Person"],
                          Fields :=
                            [{ Names := ["Context"], Type' := "string",
                               Tag := "`json:\"@context\"`" },
                              { Names := ["Type"], Type' := "string",
                                Tag := "`json:\"@type\"`" },
                              { Names := [joinStrings [P "schema", "Prop" ++ P "name"]],
                                Type' := "[]*" ++ joinStrings [P "schema", "Prop" ++ P "name"],
                                Tag := "`json:\"schema:name\"`" }] }] } ∧
      n2.GenDecl P =
        .ok { Doc := GoString.ofString "// ", Tok := "type",
              Specs := [{ Name := joinStrings [P "schema", "Prop" ++ P "name"],
                          Fields :=
                            [{ Names := ["Context"], Type' := "string",
                               Tag := "`json:\"@context\"`" },
                              { Names := ["Type"], Type' := "string",
                                Tag := "`json:\"@type\"`" }] }] } :=
  ⟨_, _, _, rfl, rfl, rfl, rfl⟩


/-! ## The index (C16) -/

theorem exists_last_occurrence (nodes : List SchemaGraphNode) (id : NodeID)
    (h : ∃ n ∈ nodes, n.ID = id) :
    ∃ i A, nodes[i]? = some A ∧ A.ID = id ∧ ∀ n ∈ nodes.drop (i + 1), n.ID ≠ id := by
  induction nodes with
  | nil =>
    obtain ⟨n, hn, _⟩ := h
    cases hn
  | cons x rest ih =>
    by_cases hrest : ∃ n ∈ rest, n.ID = id
    · obtain ⟨i, A, hA, hid, hlast⟩ := ih hrest
      exact ⟨i + 1, A, by simpa using hA, hid, by simpa using hlast⟩
    · have habs : ∀ n ∈ rest, n.ID ≠ id := fun n hn e => hrest ⟨n, hn, e⟩
      have hx : x.ID = id := by
        obtain ⟨n, hn, e⟩ := h
        rcases List.mem_cons.1 hn with e2 | e2
        · exact e2 ▸ e
        · exact absurd e (habs n e2)
      exact ⟨0, x, by simp, hx, by simpa using habs⟩

theorem insert_keys (m : NodeMap) (id : NodeID) (p : Nat) (key : NodeID)
    (h : key ∈ (NodeMap.insert m id p).map Prod.fst) : key = id ∨ key ∈ m.map Prod.fst := by
  induction m with
  | nil =>
    simp only [NodeMap.insert, List.map_cons, List.map_nil, List.mem_singleton] at h
    exact Or.inl h
  | cons kv m ih =>
    obtain ⟨k, v⟩ := kv
    by_cases hk : k = id
    · simp only [NodeMap.insert, hk, if_true, List.map_cons, List.mem_cons] at h
      rcases h with h | h
      · exact Or.inl h
      · exact Or.inr (by simp [h])
    · simp only [NodeMap.insert, hk, if_false, List.map_cons, List.mem_cons] at h
      rcases h with h | h
      · exact Or.inr (by simp [h])
      · rcases ih h with h2 | h2
        · exact Or.inl h2
        · exact Or.inr (by simp [h2])

theorem indexFrom_keys (k : Nat) (nodes : List SchemaGraphNode) (m : NodeMap) (key : NodeID)
    (h : key ∈ (indexFrom k nodes m).map Prod.fst) :
    key ∈ m.map Prod.fst ∨ ∃ n ∈ nodes, n.ID = key := by
  induction nodes generalizing k m with
  | nil => exact Or.inl h
  | cons x rest ih =>
    simp only [indexFrom] at h
    rcases ih (k + 1) _ h with h2 | ⟨n, hn, e⟩
    · rcases insert_keys m x.ID k key h2 with h3 | h3
      · exact Or.inr ⟨x, List.mem_cons_self _ _, h3.symm⟩
      · exact Or.inl h3
    · exact Or.inr ⟨n, List.mem_cons_of_mem _ hn, e⟩

theorem linkTargets_untouched (m : NodeMap) (b : NodeID) (i : Nat) (ids : List NodeID)
    (g : List SchemaGraphNode) (h : ∀ id ∈ ids, m.find id ≠ some i) :
    childsAt (linkTargets m b ids g) i = childsAt g i := by
  induction ids generalizing g with
  | nil => rfl
  | cons id ids ih =>
    have hrest : ∀ x ∈ ids, m.find x ≠ some i := fun x hx => h x (List.mem_cons_of_mem _ hx)
    simp only [linkTargets]
    split
    · exact ih g hrest
    · rename_i t ht
      split
      · exact ih g hrest
      · rw [ih _ hrest]
        refine childsAt_appendChild_ne g t i b (fun e => ?_)
        exact h id (List.mem_cons_self _ _) (by rw [ht, e])

/-- C16: the index `Parse` builds binds every identifier carried by a node to
the last node of the list carrying it, a later duplicate overwriting an earlier
one without error, and it has no key that is not the identifier of a node;
hence the subproperty-of and domain-includes branches never append a child to
a node whose identifier occurs again later in the list. -/
theorem indexFrom_last_wins (nodes : List SchemaGraphNode) :
    (∀ so, Parse (nodes.map some) = .ok so → so.nodeMap = indexFrom 0 nodes []) ∧
    (∀ id, (∃ n ∈ nodes, n.ID = id) →
      ∃ i A, (indexFrom 0 nodes []).find id = some i ∧ nodes[i]? = some A ∧ A.ID = id ∧
        ∀ n ∈ nodes.drop (i + 1), n.ID ≠ id) ∧
    (∀ key ∈ (indexFrom 0 nodes []).map Prod.fst, ∃ n ∈ nodes, n.ID = key) ∧
    (∀ id, (∀ n ∈ nodes, n.ID ≠ id) → (indexFrom 0 nodes []).find id = none) ∧
    (∀ i A, nodes[i]? = some A → (∃ n ∈ nodes.drop (i + 1), n.ID = A.ID) →
      ∀ (b : NodeID) (ids : List NodeID) (g : List SchemaGraphNode),
        childsAt (linkTargets (indexFrom 0 nodes []) b ids g) i = childsAt g i) := by
  have hlast : ∀ id, (∃ n ∈ nodes, n.ID = id) →
      ∃ i A, (indexFrom 0 nodes []).find id = some i ∧ nodes[i]? = some A ∧ A.ID = id ∧
        ∀ n ∈ nodes.drop (i + 1), n.ID ≠ id := by
    intro id h
    obtain ⟨i, A, hA, hid, hl⟩ := exists_last_occurrence nodes id h
    refine ⟨i, A, ?_, hA, hid, hl⟩
    have := find_indexFrom_last 0 nodes [] i A hA (by rw [hid]; exact hl)
    rw [hid] at this
    simpa using this
  refine ⟨fun so h => (Parse_eq_ok nodes so h).1, hlast, fun key hkey => ?_, fun id h => ?_,
    fun i A hA hdup b ids g => ?_⟩
  · rcases indexFrom_keys 0 nodes [] key hkey with h | h
    · simp at h
    · exact h
  · rw [find_indexFrom_absent 0 nodes [] id h]
    rfl
  · refine linkTargets_untouched _ b i ids g (fun id _ hfind => ?_)
    by_cases hocc : ∃ n ∈ nodes, n.ID = id
    · obtain ⟨j, B, hj, hB, hBid, hBlast⟩ := hlast id hocc
      rw [hfind] at hj
      cases hj
      rw [hA] at hB
      cases hB
      obtain ⟨n, hn, hnid⟩ := hdup
      exact hBlast n hn (hnid.trans hBid)
    · have hnone := find_indexFrom_absent 0 nodes [] id (fun n hn e => hocc ⟨n, hn, e⟩)
      rw [hfind] at hnone
      cases hnone

/-! ## Well-formed documents (C17) -/

theorem GetIDs_of_accepted (r : IDRef) (h : accepted r.Value = true) :
    ∃ ids, r.GetIDs = .ok ids := by
  obtain ⟨v⟩ := r
  have h1 := unmarshalIDObject_isSome v
  cases v with
  | arr xs =>
    have h2 := unmarshalIDObjectItems_isSome xs
    have h3 := unmarshalStringItems_isSome xs
    simp only [accepted, Bool.or_eq_true] at h
    simp only [IDRef.GetIDs, unmarshalIDObject, unmarshalIDObjects, unmarshalStrings]
    cases h4 : unmarshalIDObjectItems xs with
    | some objects => exact ⟨_, rfl⟩
    | none =>
      rw [h4] at h2
      cases h5 : unmarshalStringItems xs with
      | some ss => exact ⟨_, rfl⟩
      | none =>
        rw [h5] at h3
        rcases h with h | h
        · rw [h] at h2
          cases h2
        · rw [h] at h3
          cases h3
  | null => exact ⟨_, rfl⟩
  | bool b => simp [accepted, lenientIDObject] at h
  | num n => simp [accepted, lenientIDObject] at h
  | str s => simp [accepted, lenientIDObject] at h
  | obj ms =>
    simp only [accepted, IDRef.GetIDs, unmarshalIDObjects, unmarshalStrings] at h ⊢
    cases h4 : unmarshalIDObject (JSON.obj ms) <;> simp_all

theorem withIDs_err_source (ref : Option IDRef) (g : List SchemaGraphNode)
    (body : List NodeID → Result (List SchemaGraphNode)) (e : Err)
    (h : withIDs ref g body = .err e) :
    (∃ r e2, ref = some r ∧ r.GetIDs = .error e2) ∨ ∃ ids, body ids = .err e := by
  cases ref with
  | none => simp [withIDs] at h
  | some r =>
    cases hr : r.GetIDs with
    | error e2 => exact Or.inl ⟨r, e2, rfl, hr⟩
    | ok ids =>
      simp only [withIDs, hr] at h
      exact Or.inr ⟨ids, h⟩

theorem firstLoopBody_ne_err (m : NodeMap) (nodes g : List SchemaGraphNode) (k : Nat) (e : Err)
    (hg : Grows nodes g)
    (hshape : ∀ n r, n ∈ nodes →
      (n.RdfsSubPropertyOf = some r ∨ n.SchemaDomainIncludes = some r ∨
        n.SchemaRangeIncludes = some r ∨ n.RdfsSubClassOf = some r) →
      ∃ ids, r.GetIDs = .ok ids) :
    firstLoopBody m g k ≠ .err e := by
  cases hk : g[k]? with
  | none => simp [firstLoopBody, hk]
  | some node =>
    obtain ⟨n1, hn1, hcore⟩ := hg.node hk
    obtain ⟨_, hsp, hdi, hri, _⟩ := core_fields hcore
    have hmem := mem_of_getElem? hn1
    intro h
    simp only [firstLoopBody, hk, Result.bind_eq_err] at h
    rcases h with h | ⟨g1, _, h | ⟨g2, _, h⟩⟩
    · rcases withIDs_err_source _ _ _ e h with ⟨r, e2, href, hbad⟩ | ⟨ids, h2⟩
      · obtain ⟨ids, hok⟩ := hshape n1 r hmem (Or.inl (hsp ▸ href))
        rw [hok] at hbad
        cases hbad
      · cases h2
    · rcases withIDs_err_source _ _ _ e h with ⟨r, e2, href, hbad⟩ | ⟨ids, h2⟩
      · obtain ⟨ids, hok⟩ := hshape n1 r hmem (Or.inr (Or.inl (hdi ▸ href)))
        rw [hok] at hbad
        cases hbad
      · cases h2
    · rcases withIDs_err_source _ _ _ e h with ⟨r, e2, href, hbad⟩ | ⟨ids, h2⟩
      · obtain ⟨ids, hok⟩ := hshape n1 r hmem (Or.inr (Or.inr (Or.inl (hri ▸ href))))
        rw [hok] at hbad
        cases hbad
      · exact rangeTargets_ne_err m k ids g2 e h2

theorem secondLoopBody_ne_err (m : NodeMap) (nodes g : List SchemaGraphNode) (k : Nat) (e : Err)
    (hg : Grows nodes g)
    (hshape : ∀ n r, n ∈ nodes →
      (n.RdfsSubPropertyOf = some r ∨ n.SchemaDomainIncludes = some r ∨
        n.SchemaRangeIncludes = some r ∨ n.RdfsSubClassOf = some r) →
      ∃ ids, r.GetIDs = .ok ids) :
    secondLoopBody m g k ≠ .err e := by
  cases hk : g[k]? with
  | none => simp [secondLoopBody, hk]
  | some node =>
    obtain ⟨n1, hn1, hcore⟩ := hg.node hk
    have hsc := (core_fields hcore).2.2.2.2
    intro h
    simp only [secondLoopBody, hk] at h
    rcases withIDs_err_source _ _ _ e h with ⟨r, e2, href, hbad⟩ | ⟨ids, h2⟩
    · obtain ⟨ids, hok⟩ :=
        hshape n1 r (mem_of_getElem? hn1) (Or.inr (Or.inr (Or.inr (hsc ▸ href))))
      rw [hok] at hbad
      cases hbad
    · exact inheritTargets_ne_err m k ids g e h2

theorem forNodes_ne_err (body : List SchemaGraphNode → Nat → Result (List SchemaGraphNode))
    (Inv : List SchemaGraphNode → Prop)
    (hstep : ∀ g k g2, Inv g → body g k = .ok g2 → Inv g2)
    (hbody : ∀ g k e, Inv g → body g k ≠ .err e)
    (ks : List Nat) (g : List SchemaGraphNode) (e : Err) (hg : Inv g) :
    forNodes body ks g ≠ .err e := by
  induction ks generalizing g with
  | nil => simp [forNodes]
  | cons k ks ih =>
    simp only [forNodes, ne_eq, Result.bind_eq_err, not_or, not_exists, not_and]
    exact ⟨hbody g k e hg, fun g1 h1 => ih g1 (hstep g k g1 hg h1)⟩

theorem Parse_ne_err (nodes : List SchemaGraphNode) (e : Err)
    (hshape : ∀ n r, n ∈ nodes →
      (n.RdfsSubPropertyOf = some r ∨ n.SchemaDomainIncludes = some r ∨
        n.SchemaRangeIncludes = some r ∨ n.RdfsSubClassOf = some r) →
      ∃ ids, r.GetIDs = .ok ids) :
    Parse (nodes.map some) ≠ .err e := by
  intro h
  simp only [Parse, derefAll_map_some, Result.bind_eq_err] at h
  rcases h with (h | ⟨g1, h1, h⟩) | ⟨g2, _, h⟩
  · exact forNodes_ne_err (firstLoopBody (indexFrom 0 nodes [])) (Grows nodes)
      (fun _ k _ ha hb => ha.trans (grows_firstLoopBody _ _ _ k hb))
      (fun g k e2 hg => firstLoopBody_ne_err _ nodes g k e2 hg hshape)
      _ nodes e (Grows.refl nodes) h
  · exact forNodes_ne_err (secondLoopBody (indexFrom 0 nodes [])) (Grows nodes)
      (fun _ k _ ha hb => ha.trans (grows_secondLoopBody _ _ _ k hb))
      (fun g k e2 hg => secondLoopBody_ne_err _ nodes g k e2 hg hshape)
      _ g1 e (grows_firstLoop _ nodes g1 h1) h
  · cases h

/-- C17: on a decoded node list with no nil node, in which every present
subproperty-of, domain-includes, range-includes and subclass-of reference has a
shape on which `GetIDs` succeeds and every
identifier listed by a range-includes or subclass-of reference is the
identifier of a node, `Parse` returns a graph and a nil error: it reaches
neither an error return nor a nil dereference. -/
theorem Parse_returns_graph (graph : List (Option SchemaGraphNode))
    (hnil : ∀ x ∈ graph, x ≠ none)
    (hshape : ∀ n r, some n ∈ graph →
      (n.RdfsSubPropertyOf = some r ∨ n.SchemaDomainIncludes = some r ∨
        n.SchemaRangeIncludes = some r ∨ n.RdfsSubClassOf = some r) →
      accepted r.Value = true)
    (hknown : ∀ n r ids, some n ∈ graph →
      (n.SchemaRangeIncludes = some r ∨ n.RdfsSubClassOf = some r) → r.GetIDs = .ok ids →
      ∀ id ∈ ids, ∃ n2, some n2 ∈ graph ∧ n2.ID = id) :
    ∃ so, Parse graph = .ok so := by
  obtain ⟨nodes, hd⟩ := derefAll_of_no_nil graph hnil
  have hgraph := derefAll_eq_some graph nodes hd
  subst hgraph
  cases hP : Parse (nodes.map some) with
  | ok so => exact ⟨so, rfl⟩
  | err e =>
    refine absurd hP (Parse_ne_err nodes e (fun n r hn hr => ?_))
    exact GetIDs_of_accepted r (hshape n r (by simpa using hn) hr)
  | panic =>
    refine absurd hP (Parse_ne_panic nodes (fun n r ids hn hr hids id hid => ?_))
    obtain ⟨n2, hn2, hid2⟩ := hknown n r ids (by simpa using hn) hr hids id hid
    exact ⟨n2, by simpa using hn2, hid2⟩

/-- C17, witness: `schema:Person`, `schema:name` with `schema:Person` in its
domain and range, and `schema:Employee`, subclass of `schema:Person`. -/
theorem Parse_returns_graph_witness :
    ∃ so, Parse
      [some { ID := "schema:Person" },
        some { ID := "schema:name",
               SchemaDomainIncludes := some ⟨JSON.obj [("@id", JSON.str "schema:Person")]⟩,
               SchemaRangeIncludes := some ⟨JSON.arr [JSON.str "schema:Person"]⟩ },
        some { ID := "schema:Employee",
               RdfsSubClassOf :=
                 some ⟨JSON.arr [JSON.obj [("@id", JSON.str "schema:Person")]]⟩ }] = .ok so :=
  Parse_returns_graph _
    (fun x hx => by
      simp only [List.mem_cons, List.mem_singleton, List.not_mem_nil, or_false] at hx
      rcases hx with h | h | h <;> rw [h] <;> exact Option.some_ne_none _)
    (fun n r hn hr => by
      simp only [List.mem_cons, List.mem_singleton, List.not_mem_nil, or_false,
        Option.some.injEq] at hn
      rcases hn with h | h | h <;> subst h <;>
        rcases hr with h | h | h | h <;> cases h <;> rfl)
    (fun n r ids hn hr hids id hid => by
      simp only [List.mem_cons, List.mem_singleton, List.not_mem_nil, or_false,
        Option.some.injEq] at hn
      rcases hn with h | h | h <;> subst h <;> rcases hr with h | h <;> cases h <;>
        · have hlist : (Except.ok ["schema:Person"] : Except Err (List NodeID)) = .ok ids := hids
          cases hlist
          rw [List.mem_singleton] at hid
          subst hid
          exact ⟨{ ID := "schema:Person" }, List.mem_cons_self _ _, rfl⟩)


/-! ## One declaration per node (C15) -/

theorem insert_of_not_mem (m : NodeMap) (id : NodeID) (p : Nat)
    (h : id ∉ m.map Prod.fst) : NodeMap.insert m id p = m ++ [(id, p)] := by
  induction m with
  | nil => rfl
  | cons kv m ih =>
    obtain ⟨k, v⟩ := kv
    simp only [List.map_cons, List.mem_cons, not_or] at h
    have hk : ¬ k = id := fun e => h.1 e.symm
    simp [NodeMap.insert, hk, ih h.2]

theorem indexFrom_positions (k : Nat) (nodes : List SchemaGraphNode) (m : NodeMap)
    (hnodup : (nodes.map fun n => n.ID).Nodup) (hfresh : ∀ n ∈ nodes, n.ID ∉ m.map Prod.fst) :
    (indexFrom k nodes m).map Prod.snd = m.map Prod.snd ++ List.range' k nodes.length := by
  induction nodes generalizing k m with
  | nil => simp [indexFrom]
  | cons x rest ih =>
    simp only [List.map_cons, List.nodup_cons, List.mem_map, not_exists, not_and] at hnodup
    simp only [indexFrom]
    rw [insert_of_not_mem m x.ID k (hfresh x (List.mem_cons_self _ _)),
      ih (k + 1) _ hnodup.2 (fun n hn => ?_)]
    · simp [List.range'_succ]
    · simp only [List.map_append, List.map_cons, List.map_nil, List.mem_append,
        List.mem_singleton, not_or]
      exact ⟨hfresh n (List.mem_cons_of_mem _ hn), fun e => hnodup.1 n hn e⟩

theorem filterMap_range' (D : SchemaGraphNode → ast.GenDecl) (pre g : List SchemaGraphNode) :
    (List.range' pre.length g.length).filterMap (fun p => ((pre ++ g)[p]?).map D) = g.map D := by
  induction g generalizing pre with
  | nil => rfl
  | cons x rest ih =>
    have h := ih (pre ++ [x])
    simp only [List.length_append, List.length_singleton, List.append_assoc,
      List.singleton_append] at h
    have hx : (pre ++ x :: rest)[pre.length]? = some x := by
      rw [List.getElem?_append_right (Nat.le_refl _)]
      simp
    simp only [List.length_cons, List.range'_succ, List.filterMap_cons, hx, Option.map_some',
      List.map_cons, h]

theorem genDecls_eq (P : String → String) (g : List SchemaGraphNode)
    (order : List (NodeID × Nat)) (hg : ∀ n ∈ g, n.GenDecl P = .ok (declOf P n))
    (hpos : ∀ e ∈ order, e.2 < g.length) :
    genDecls P g order = .ok (order.filterMap fun e => (g[e.2]?).map (declOf P)) := by
  induction order with
  | nil => rfl
  | cons e rest ih =>
    have hlt := hpos e (List.mem_cons_self _ _)
    have hget : g[e.2]? = some g[e.2] := List.getElem?_eq_getElem hlt
    simp only [genDecls, hget, hg _ (List.getElem_mem hlt),
      ih (fun x hx => hpos x (List.mem_cons_of_mem _ hx)), List.filterMap_cons, Option.map_some']
    rfl

/-- C15, counterexample: two nodes carry the identifier `a`; the index has one
entry and `GenFile` produces one declaration for the two nodes. -/
theorem GenFile_of_duplicate :
    ∃ so file,
      Parse [some { ID := "a" }, some { ID := "a" }] = .ok so ∧ so.Graph.length = 2 ∧
      so.nodeMap = [("a", 1)] ∧
      so.GenFile pascalWord [("a", 1)] "structschema" = .ok file ∧ file.Decls.length = 1 :=
  ⟨_, _, rfl, rfl, rfl, rfl, rfl⟩

/-- C15, amended: for every graph returned by `Parse` whose node identifiers
are pairwise distinct and on whose nodes `GenDecl` returns, `GenFile` returns,
whatever the order of the map iteration, a file with exactly one declaration
per graph node: as many declarations as nodes, which are, up to order, the
declarations `GenDecl` returns for the nodes of the list. -/
theorem GenFile_one_decl_per_node (P : String → String) (nodes : List SchemaGraphNode)
    (so : SchemaOrg) (order : List (NodeID × Nat)) (ident : String)
    (hP : Parse (nodes.map some) = .ok so)
    (hdistinct : (nodes.map fun n => n.ID).Nodup)
    (horder : order.Perm so.nodeMap)
    (hret : ∀ n ∈ so.Graph, ∃ d, n.GenDecl P = .ok d) :
    ∃ file ds, so.GenFile P order ident = .ok file ∧ file.Name = ident ∧
      file.Decls.length = so.Graph.length ∧ so.Graph.length = nodes.length ∧
      List.Forall₂ (fun n d => SchemaGraphNode.GenDecl P n = .ok d) so.Graph ds ∧
      file.Decls.Perm ds := by
  obtain ⟨hmap, g1, h1, h2⟩ := Parse_eq_ok nodes so hP
  have hlen : so.Graph.length = nodes.length :=
    ((grows_firstLoop _ nodes g1 h1).trans (grows_secondLoop _ g1 so.Graph h2)).length_eq
  have hdecl : ∀ n ∈ so.Graph, n.GenDecl P = .ok (declOf P n) := by
    intro n hn
    obtain ⟨d, hd⟩ := hret n hn
    rcases GenDecl_cases P n with h | h
    · exact h
    · rw [h] at hd
      cases hd
  have hsnd : (order.map Prod.snd).Perm (List.range' 0 so.Graph.length) := by
    have := indexFrom_positions 0 nodes [] hdistinct (fun n _ => by simp)
    rw [← hmap] at this
    simp only [List.map_nil, List.nil_append] at this
    rw [hlen, ← this]
    exact horder.map _
  have hpos : ∀ e ∈ order, e.2 < so.Graph.length := by
    intro e he
    have hin : e.2 ∈ List.range' 0 so.Graph.length :=
      hsnd.subset (List.mem_map_of_mem _ he)
    simp only [List.mem_range'_1] at hin
    omega
  have hperm : (order.filterMap fun e => (so.Graph[e.2]?).map (declOf P)).Perm
      (so.Graph.map (declOf P)) := by
    have h3 := filterMap_range' (declOf P) [] so.Graph
    simp only [List.length_nil, List.nil_append] at h3
    rw [← h3]
    have h4 := hsnd.filterMap (fun p => (so.Graph[p]?).map (declOf P))
    rwa [List.filterMap_map] at h4
  refine ⟨{ Name := ident, Decls := order.filterMap fun e => (so.Graph[e.2]?).map (declOf P) },
    so.Graph.map (declOf P), ?_, rfl, ?_, hlen, ?_, hperm⟩
  · simp only [SchemaOrg.GenFile, genDecls_eq P so.Graph order hdecl hpos]
    rfl
  · simpa using hperm.length_eq
  · rw [List.forall₂_map_right_iff]
    exact List.forall₂_same.2 hdecl

/-- C15, witness: the graph of `schema:Person` and `schema:name`, the map
iterated from its last entry. -/
theorem GenFile_one_decl_per_node_witness :
    ∃ file ds,
      SchemaOrg.GenFile pascalWord
        { Graph :=
            [{ ID := "schema:Person", Childs := ["schema:name"] },
              { ID := "schema:name",
                SchemaDomainIncludes := some ⟨JSON.obj [("@id", JSON.str "schema:Person")]⟩ }],
          nodeMap := [("schema:Person", 0), ("schema:name", 1)] }
        [("schema:name", 1), ("schema:Person", 0)] "structschema" = .ok file ∧
      file.Name = "structschema" ∧ file.Decls.length = 2 ∧ (2 : Nat) = 2 ∧
      List.Forall₂ (fun n d => SchemaGraphNode.GenDecl pascalWord n = .ok d)
        [{ ID := "schema:Person", Childs := ["schema:name"] },
          { ID := "schema:name",
            SchemaDomainIncludes := some ⟨JSON.obj [("@id", JSON.str "schema:Person")]⟩ }] ds ∧
      file.Decls.Perm ds :=
  GenFile_one_decl_per_node pascalWord
    [{ ID := "schema:Person" },
      { ID := "schema:name",
        SchemaDomainIncludes := some ⟨JSON.obj [("@id", JSON.str "schema:Person")]⟩ }]
    { Graph :=
        [{ ID := "schema:Person", Childs := ["schema:name"] },
          { ID := "schema:name",
            SchemaDomainIncludes := some ⟨JSON.obj [("@id", JSON.str "schema:Person")]⟩ }],
      nodeMap := [("schema:Person", 0), ("schema:name", 1)] }
    [("schema:name", 1), ("schema:Person", 0)] "structschema" rfl (by decide)
    (List.Perm.swap _ _ _)
    (fun n hn => by
      simp only [List.mem_cons, List.mem_singleton, List.not_mem_nil, or_false] at hn
      rcases hn with h | h <;> subst h <;> exact ⟨_, rfl⟩)


/-! ## Graphs without range-includes and subclass-of (C18) -/

theorem nodup_last (nodes : List SchemaGraphNode) (hnodup : (nodes.map fun n => n.ID).Nodup)
    (i : Nat) (A : SchemaGraphNode) (hA : nodes[i]? = some A) :
    ∀ n ∈ nodes.drop (i + 1), n.ID ≠ A.ID := by
  induction nodes generalizing i with
  | nil => simp at hA
  | cons x rest ih =>
    simp only [List.map_cons, List.nodup_cons, List.mem_map, not_exists, not_and] at hnodup
    cases i with
    | zero =>
      simp only [List.getElem?_cons_zero, Option.some.injEq] at hA
      subst hA
      intro n hn
      exact hnodup.1 n (by simpa using hn)
    | succ i =>
      intro n hn
      exact ih hnodup.2 i (by simpa using hA) n (by simpa using hn)

theorem nodup_before (nodes : List SchemaGraphNode) (hnodup : (nodes.map fun n => n.ID).Nodup)
    (k : Nat) (N : SchemaGraphNode) (hN : nodes[k]? = some N) :
    ∀ n ∈ nodes.take k, n.ID ≠ N.ID := by
  induction nodes generalizing k with
  | nil => simp at hN
  | cons x rest ih =>
    simp only [List.map_cons, List.nodup_cons, List.mem_map, not_exists, not_and] at hnodup
    cases k with
    | zero => simp
    | succ k =>
      have hN2 : rest[k]? = some N := by simpa using hN
      intro n hn
      simp only [List.take_succ_cons, List.mem_cons] at hn
      rcases hn with e | e
      · subst e
        exact fun e2 => hnodup.1 N (mem_of_getElem? hN2) e2.symm
      · exact ih hnodup.2 k hN2 n e

theorem find_iff_of_nodup (nodes : List SchemaGraphNode)
    (hnodup : (nodes.map fun n => n.ID).Nodup) (i : Nat) (A : SchemaGraphNode)
    (hA : nodes[i]? = some A) (id : NodeID) :
    (indexFrom 0 nodes []).find id = some i ↔ id = A.ID := by
  have hfind : (indexFrom 0 nodes []).find A.ID = some i := by
    simpa using find_indexFrom_last 0 nodes [] i A hA (nodup_last nodes hnodup i A hA)
  constructor
  · intro h
    by_cases hocc : ∃ n ∈ nodes, n.ID = id
    · obtain ⟨j, B, hB, hBid, hBlast⟩ := exists_last_occurrence nodes id hocc
      have hj := find_indexFrom_last 0 nodes [] j B hB (by rw [hBid]; exact hBlast)
      rw [hBid, h] at hj
      simp only [Nat.zero_add, Option.some.injEq] at hj
      subst hj
      rw [hA] at hB
      cases hB
      exact hBid.symm
    · rw [find_indexFrom_absent 0 nodes [] id (fun n hn e => hocc ⟨n, hn, e⟩)] at h
      cases h
  · intro h
    rw [h]
    exact hfind

theorem linkTargets_childs (m : NodeMap) (b a : NodeID) (i : Nat)
    (hfind : ∀ id, m.find id = some i ↔ id = a) (ids : List NodeID)
    (g : List SchemaGraphNode) (hi : i < g.length) :
    childsAt (linkTargets m b ids g) i =
      if a ∈ ids ∧ b ∉ childsAt g i then childsAt g i ++ [b] else childsAt g i := by
  induction ids generalizing g with
  | nil => simp [linkTargets]
  | cons id ids ih =>
    simp only [linkTargets]
    cases hfid : m.find id with
    | none =>
      have hne : ¬ a = id := by
        intro e
        rw [← e, (hfind a).2 rfl] at hfid
        cases hfid
      simp only [ih g hi, List.mem_cons, hne, false_or]
    | some t =>
      by_cases hti : t = i
      · subst hti
        have hid : id = a := (hfind id).1 hfid
        subst hid
        by_cases hguard : (childsAt g t).contains b = true
        · have hin : b ∈ childsAt g t := by simpa using hguard
          simp [hguard, ih g hi, hin]
        · have hnin : b ∉ childsAt g t := by simpa using hguard
          have hlen : t < (appendChild g t b).length := by
            rw [appendChild_length]
            exact hi
          simp [hguard, ih _ hlen, childsAt_appendChild_self g t b hi, hnin]
      · have hne : ¬ a = id := by
          intro e
          rw [← e, (hfind a).2 rfl] at hfid
          exact hti (Option.some.inj hfid).symm
        by_cases hguard : (childsAt g t).contains b = true
        · simp only [hguard, if_true, ih g hi, List.mem_cons, hne, false_or]
        · have hlen : i < (appendChild g t b).length := by
            rw [appendChild_length]
            exact hi
          have hg2 : (childsAt g t).contains b = false := by simpa using hguard
          simp only [hg2, Bool.false_eq_true, if_false, ih _ hlen,
            childsAt_appendChild_ne g t i b (fun e => hti e.symm), List.mem_cons, hne, false_or]

theorem link_step_eq (m : NodeMap) (ref : Option IDRef) (b : NodeID)
    (g g2 : List SchemaGraphNode)
    (h : withIDs ref g (fun ids => .ok (linkTargets m b ids g)) = .ok g2) :
    g2 = linkTargets m b (listedIDs ref) g := by
  rcases (withIDs_eq_ok ref g g2 _).1 h with ⟨hnone, h2⟩ | ⟨r, ids, hr, hids, h2⟩
  · rw [h2, hnone]
    rfl
  · simp only [Result.ok.injEq] at h2
    rw [← h2, hr]
    simp [listedIDs, hids]


theorem forNodes_range' (body : List SchemaGraphNode → Nat → Result (List SchemaGraphNode))
    (Inv : Nat → List SchemaGraphNode → Prop)
    (hstep : ∀ k g g2, Inv k g → body g k = .ok g2 → Inv (k + 1) g2)
    (len k : Nat) (g g2 : List SchemaGraphNode) (hg : Inv k g)
    (h : forNodes body (List.range' k len) g = .ok g2) : Inv (k + len) g2 := by
  induction len generalizing k g with
  | zero =>
    simp only [List.range'_zero, forNodes, Result.ok.injEq] at h
    exact h ▸ hg
  | succ len ih =>
    simp only [List.range'_succ, forNodes, Result.bind_eq_ok] at h
    obtain ⟨g1, h1, h2⟩ := h
    have := ih (k + 1) g1 (hstep k g g1 hg h1) h2
    have he : k + 1 + len = k + (len + 1) := by omega
    rw [← he]
    exact this

theorem firstLoopBody_childs (nodes : List SchemaGraphNode)
    (hnodup : (nodes.map fun n => n.ID).Nodup)
    (hnone : ∀ n ∈ nodes, n.SchemaRangeIncludes = none) (k : Nat)
    (g g2 : List SchemaGraphNode) (hg : Grows nodes g)
    (hinv : ∀ i A, nodes[i]? = some A → childsAt g i =
      ((nodes.take k).filter fun N => namesAsParent N A.ID).map fun N => N.ID)
    (h : firstLoopBody (indexFrom 0 nodes []) g k = .ok g2) :
    ∀ i A, nodes[i]? = some A → childsAt g2 i =
      ((nodes.take (k + 1)).filter fun N => namesAsParent N A.ID).map fun N => N.ID := by
  intro i A hA
  cases hk : g[k]? with
  | none =>
    simp only [firstLoopBody, hk, Result.ok.injEq] at h
    rw [List.getElem?_eq_none_iff, hg.length_eq] at hk
    rw [← h, hinv i A hA, List.take_of_length_le hk, List.take_of_length_le (by omega)]
  | some node =>
    obtain ⟨N, hN, hcore⟩ := hg.node hk
    obtain ⟨hID, hsp, hdi, hri, _⟩ := core_fields hcore
    obtain ⟨g3, g4, e2, e3, e4⟩ := firstLoopBody_eq_ok _ g g2 k node hk h
    rw [hri, hnone N (mem_of_getElem? hN)] at e4
    simp only [withIDs, Result.ok.injEq] at e4
    subst e4
    have e2b := link_step_eq _ _ _ _ _ e2
    have e3b := link_step_eq _ _ _ _ _ e3
    rw [hID, hsp] at e2b
    rw [hID, hdi] at e3b
    have hi : i < g.length := by
      rw [hg.length_eq]
      exact lt_length_of_getElem? hA
    have hi3 : i < g3.length := by
      rw [e2b, (grows_linkTargets _ _ _ g).length_eq]
      exact hi
    have hfind := find_iff_of_nodup nodes hnodup i A hA
    have hb : N.ID ∉ childsAt g i := by
      rw [hinv i A hA]
      intro hin
      simp only [List.mem_map, List.mem_filter] at hin
      obtain ⟨n, ⟨hn, _⟩, e⟩ := hin
      exact nodup_before nodes hnodup k N hN n hn e
    have htake : nodes.take (k + 1) = nodes.take k ++ [N] := by
      rw [List.take_succ, hN]
      rfl
    have h3 : childsAt g3 i = if A.ID ∈ listedIDs N.RdfsSubPropertyOf then childsAt g i ++ [N.ID]
        else childsAt g i := by
      rw [e2b, linkTargets_childs _ N.ID A.ID i hfind _ g hi]
      simp [hb]
    rw [e3b, linkTargets_childs _ N.ID A.ID i hfind _ g3 hi3, h3, htake, List.filter_append,
      List.map_append, ← hinv i A hA]
    by_cases h1 : A.ID ∈ listedIDs N.RdfsSubPropertyOf <;>
      by_cases h2 : A.ID ∈ listedIDs N.SchemaDomainIncludes <;>
      simp [namesAsParent, h1, h2, hb, List.filter_cons]

theorem secondLoopBody_id (m : NodeMap) (nodes g g2 : List SchemaGraphNode) (k : Nat)
    (hnone : ∀ n ∈ nodes, n.RdfsSubClassOf = none) (hg : Grows nodes g)
    (h : secondLoopBody m g k = .ok g2) : g2 = g := by
  cases hk : g[k]? with
  | none =>
    simp only [secondLoopBody, hk, Result.ok.injEq] at h
    exact h.symm
  | some node =>
    obtain ⟨N, hN, hcore⟩ := hg.node hk
    simp only [secondLoopBody, hk, (core_fields hcore).2.2.2.2, hnone N (mem_of_getElem? hN),
      withIDs, Result.ok.injEq] at h
    exact h.symm

/-- C18, counterexample: `Childs` is an exported field without a tag, so the
decoder fills it from a `Childs` key of the document; a single node `a`
decoded with `Childs = [x]` has no reference at all, and `Parse` returns it
with `Childs = [x]`, not with the empty list. -/
theorem Parse_keeps_decoded_childs :
    (Parse [some { ID := "a", Childs := ["x"] }]).childs = some [["x"]] :=
  rfl

/-- C18, amended: for every graph with pairwise distinct node identifiers in which no
node has a range-includes or subclass-of reference, whose nodes are decoded
with empty `Childs` (the document presets none) and on which `Parse` succeeds,
the `Childs` of each node `A` is the list, in graph order, of the identifiers
of the nodes whose subproperty-of or domain-includes identifier list contains
the identifier of `A`, each listed once; it is empty for a node that no
reference targets. -/
theorem Parse_childs_of_parents (nodes : List SchemaGraphNode) (so : SchemaOrg)
    (hP : Parse (nodes.map some) = .ok so)
    (hdistinct : (nodes.map fun n => n.ID).Nodup)
    (hnone : ∀ n ∈ nodes, n.SchemaRangeIncludes = none ∧ n.RdfsSubClassOf = none)
    (hempty : ∀ n ∈ nodes, n.Childs = []) :
    so.Graph.length = nodes.length ∧
    (∀ i A, nodes[i]? = some A →
      childsAt so.Graph i =
        (nodes.filter fun N => namesAsParent N A.ID).map fun N => N.ID) ∧
    (∀ i A, nodes[i]? = some A → (∀ N ∈ nodes, namesAsParent N A.ID = false) →
      childsAt so.Graph i = []) := by
  obtain ⟨_, g1, h1, h2⟩ := Parse_eq_ok nodes so hP
  have hg1 := grows_firstLoop _ nodes g1 h1
  have hinv1 := forNodes_range' (firstLoopBody (indexFrom 0 nodes []))
    (fun k g => Grows nodes g ∧ ∀ i A, nodes[i]? = some A → childsAt g i =
      ((nodes.take k).filter fun N => namesAsParent N A.ID).map fun N => N.ID)
    (fun k g g2 hg hb => ⟨hg.1.trans (grows_firstLoopBody _ _ _ k hb),
      firstLoopBody_childs nodes hdistinct (fun n hn => (hnone n hn).1) k g g2 hg.1 hg.2 hb⟩)
    nodes.length 0 nodes g1
    ⟨Grows.refl nodes, fun i A hA => by simp [childsAt, hA, hempty A (mem_of_getElem? hA)]⟩
    (by rw [← List.range_eq_range']; exact h1)
  have hsame : so.Graph = g1 :=
    (forNodes_inv (secondLoopBody (indexFrom 0 nodes []))
      (fun g => Grows nodes g ∧ g = g1)
      (fun g k g2 hg hb => by
        have e := secondLoopBody_id _ nodes g g2 k (fun n hn => (hnone n hn).2) hg.1 hb
        rw [e]
        exact hg)
      (List.range g1.length) g1 so.Graph ⟨hg1, rfl⟩ h2).2
  have hall : ∀ i A, nodes[i]? = some A →
      childsAt so.Graph i = (nodes.filter fun N => namesAsParent N A.ID).map fun N => N.ID := by
    intro i A hA
    have := hinv1.2 i A hA
    rw [Nat.zero_add, List.take_length] at this
    rw [hsame]
    exact this
  refine ⟨by rw [hsame]; exact hg1.length_eq, hall, fun i A hA hno => ?_⟩
  rw [hall i A hA]
  have : (nodes.filter fun N => namesAsParent N A.ID) = [] := by
    rw [List.filter_eq_nil_iff]
    intro N hN
    simp [hno N hN]
  rw [this]
  rfl

/-- C18, witness: `schema:Person` with the properties `schema:name` and
`schema:email`, and `schema:Thing` that no reference targets. -/
theorem Parse_childs_of_parents_witness :
    childsAt
      [{ ID := "schema:Person", Childs := ["schema:name", "schema:email"] },
        { ID := "schema:name",
          SchemaDomainIncludes := some ⟨JSON.obj [("@id", JSON.str "schema:Person")]⟩ },
        { ID := "schema:Thing" },
        { ID := "schema:email",
          SchemaDomainIncludes := some ⟨JSON.arr [JSON.str "schema:Person"]⟩ }] 0 =
      ["schema:name", "schema:email"] :=
  (Parse_childs_of_parents
    [{ ID := "schema:Person" },
      { ID := "schema:name",
        SchemaDomainIncludes := some ⟨JSON.obj [("@id", JSON.str "schema:Person")]⟩ },
      { ID := "schema:Thing" },
      { ID := "schema:email",
        SchemaDomainIncludes := some ⟨JSON.arr [JSON.str "schema:Person"]⟩ }]
    { Graph :=
        [{ ID := "schema:Person", Childs := ["schema:name", "schema:email"] },
          { ID := "schema:name",
            SchemaDomainIncludes := some ⟨JSON.obj [("@id", JSON.str "schema:Person")]⟩ },
          { ID := "schema:Thing" },
          { ID := "schema:email",
            SchemaDomainIncludes := some ⟨JSON.arr [JSON.str "schema:Person"]⟩ }],
      nodeMap := [("schema:Person", 0), ("schema:name", 1), ("schema:Thing", 2),
        ("schema:email", 3)] }
    rfl (by decide)
    (fun n hn => by
      simp only [List.mem_cons, List.mem_singleton, List.not_mem_nil, or_false] at hn
      rcases hn with h | h | h | h <;> subst h <;> exact ⟨rfl, rfl⟩)
    (fun n hn => by
      simp only [List.mem_cons, List.mem_singleton, List.not_mem_nil, or_false] at hn
      rcases hn with h | h | h | h <;> subst h <;> rfl)).2.1 0 { ID := "schema:Person" } rfl


/-! ## The subclass pass is a single sweep (C19) -/

theorem forNodes_append (body : List SchemaGraphNode → Nat → Result (List SchemaGraphNode))
    (l1 l2 : List Nat) (g g2 : List SchemaGraphNode) :
    forNodes body (l1 ++ l2) g = .ok g2 ↔
      ∃ g1, forNodes body l1 g = .ok g1 ∧ forNodes body l2 g1 = .ok g2 := by
  induction l1 generalizing g with
  | nil => simp [forNodes]
  | cons k l1 ih =>
    simp only [List.cons_append, forNodes]
    cases hb : body g k with
    | ok a =>
      simp only [Result.bind]
      exact ih a
    | err e => simp [Result.bind]
    | panic => simp [Result.bind]

theorem firstLoopBody_links (m : NodeMap) (nodes g g2 : List SchemaGraphNode) (i j : Nat)
    (X : SchemaGraphNode) (r : IDRef) (ids : List NodeID) (a : NodeID)
    (hg : Grows nodes g) (hX : nodes[j]? = some X) (hr : X.SchemaDomainIncludes = some r)
    (hids : r.GetIDs = .ok ids) (ha : a ∈ ids) (hfind : m.find a = some i)
    (hi : i < nodes.length) (h : firstLoopBody m g j = .ok g2) : X.ID ∈ childsAt g2 i := by
  cases hk : g[j]? with
  | none =>
    rw [List.getElem?_eq_none_iff, hg.length_eq] at hk
    have := lt_length_of_getElem? hX
    omega
  | some node =>
    obtain ⟨n1, hn1, hcore⟩ := hg.node hk
    rw [hX] at hn1
    cases hn1
    obtain ⟨hID, _, hdi, _, _⟩ := core_fields hcore
    obtain ⟨g3, g4, e2, e3, e4⟩ := firstLoopBody_eq_ok _ g g2 j node hk h
    have hg3 := grows_link_step _ _ _ _ _ e2
    have hg4 := grows_range_step _ _ _ _ _ e4
    simp only [hdi, hr, withIDs, hids, hID, Result.ok.injEq] at e3
    refine hg4.mem ?_
    rw [← e3]
    exact linkTargets_mem _ X.ID a i ids g3 ha hfind
      (by rw [hg3.length_eq, hg.length_eq]; exact hi)

theorem secondLoopBody_inherits (m : NodeMap) (nodes g g2 : List SchemaGraphNode) (i j : Nat)
    (C : SchemaGraphNode) (r : IDRef) (ids : List NodeID) (b : NodeID)
    (hg : Grows nodes g) (hC : nodes[j]? = some C) (hr : C.RdfsSubClassOf = some r)
    (hids : r.GetIDs = .ok ids) (hb : b ∈ ids) (hfind : m.find b = some i)
    (h : secondLoopBody m g j = .ok g2) (c : NodeID) (hc : c ∈ childsAt g i) :
    c ∈ childsAt g2 j := by
  have hjg : j < g.length := by
    rw [hg.length_eq]
    exact lt_length_of_getElem? hC
  cases hk : g[j]? with
  | none =>
    rw [List.getElem?_eq_none_iff] at hk
    omega
  | some node =>
    obtain ⟨n1, hn1, hcore⟩ := hg.node hk
    rw [hC] at hn1
    cases hn1
    simp only [secondLoopBody, hk, (core_fields hcore).2.2.2.2, hr, withIDs, hids] at h
    exact inheritTargets_mem m j i b ids g g2 h hb hfind hjg c hc

theorem subclass_chain_inherits (nodes : List SchemaGraphNode) (so : SchemaOrg)
    (iA iB iC : Nat) (A B C X : SchemaGraphNode) (rX rB rC : IDRef)
    (idsX idsB idsC : List NodeID)
    (hP : Parse (nodes.map some) = .ok so)
    (hA : nodes[iA]? = some A) (hAlast : ∀ n ∈ nodes.drop (iA + 1), n.ID ≠ A.ID)
    (hB : nodes[iB]? = some B) (hBlast : ∀ n ∈ nodes.drop (iB + 1), n.ID ≠ B.ID)
    (hC : nodes[iC]? = some C) (hX : X ∈ nodes)
    (hrX : X.SchemaDomainIncludes = some rX) (hidsX : rX.GetIDs = .ok idsX)
    (hAX : A.ID ∈ idsX)
    (hrB : B.RdfsSubClassOf = some rB) (hidsB : rB.GetIDs = .ok idsB) (hAB : A.ID ∈ idsB)
    (hrC : C.RdfsSubClassOf = some rC) (hidsC : rC.GetIDs = .ok idsC) (hBC : B.ID ∈ idsC)
    (hlt : iB < iC) : X.ID ∈ childsAt so.Graph iC := by
  obtain ⟨_, g1, h1, h2⟩ := Parse_eq_ok nodes so hP
  obtain ⟨jX, hjX⟩ := List.mem_iff_getElem?.1 hX
  have hfA : (indexFrom 0 nodes []).find A.ID = some iA := by
    simpa using find_indexFrom_last 0 nodes [] iA A hA hAlast
  have hfB : (indexFrom 0 nodes []).find B.ID = some iB := by
    simpa using find_indexFrom_last 0 nodes [] iB B hB hBlast
  have hg1 := grows_firstLoop _ nodes g1 h1
  have hlen1 : g1.length = nodes.length := hg1.length_eq
  have hiC : iC < nodes.length := lt_length_of_getElem? hC
  have hstep : ∀ (g : List SchemaGraphNode) (k : Nat) (g2 : List SchemaGraphNode),
      Grows nodes g → secondLoopBody (indexFrom 0 nodes []) g k = .ok g2 → Grows nodes g2 :=
    fun _ k _ ha hb => ha.trans (grows_secondLoopBody _ _ _ k hb)
  have hin1 : X.ID ∈ childsAt g1 iA :=
    forNodes_reach (firstLoopBody (indexFrom 0 nodes [])) (Grows nodes)
      (fun g => X.ID ∈ childsAt g iA) jX
      (fun _ k _ ha hb => ha.trans (grows_firstLoopBody _ _ _ k hb))
      (fun _ k _ _ hq hb => (grows_firstLoopBody _ _ _ k hb).mem hq)
      (fun g g2 hg hb => firstLoopBody_links _ nodes g g2 iA jX X rX idsX A.ID hg hjX hrX
        hidsX hAX hfA (lt_length_of_getElem? hA) hb)
      (List.range nodes.length) nodes g1
      (List.mem_range.2 (lt_length_of_getElem? hjX)) (Grows.refl nodes) h1
  have hsplit : List.range g1.length =
      List.range' 0 (iB + 1) ++ List.range' (iB + 1) (nodes.length - (iB + 1)) := by
    rw [List.range_eq_range', hlen1]
    have := List.range'_append_1 0 (iB + 1) (nodes.length - (iB + 1))
    rw [Nat.zero_add] at this
    rw [this]
    congr 1
    omega
  rw [secondLoop, hsplit, forNodes_append] at h2
  obtain ⟨gm, hm1, hm2⟩ := h2
  have hgm : Grows nodes gm ∧ X.ID ∈ childsAt gm iB := by
    refine ⟨forNodes_inv _ (Grows nodes) hstep _ g1 gm hg1 hm1, ?_⟩
    exact forNodes_reach (secondLoopBody (indexFrom 0 nodes []))
      (fun g => Grows nodes g ∧ X.ID ∈ childsAt g iA) (fun g => X.ID ∈ childsAt g iB) iB
      (fun g k g2 ha hb => ⟨hstep g k g2 ha.1 hb, (grows_secondLoopBody _ _ _ k hb).mem ha.2⟩)
      (fun _ k _ _ hq hb => (grows_secondLoopBody _ _ _ k hb).mem hq)
      (fun g g2 hg hb => secondLoopBody_inherits _ nodes g g2 iA iB B rB idsB A.ID hg.1 hB hrB
        hidsB hAB hfA hb X.ID hg.2)
      (List.range' 0 (iB + 1)) g1 gm (by simp [List.mem_range'_1]) ⟨hg1, hin1⟩ hm1
  exact forNodes_reach (secondLoopBody (indexFrom 0 nodes []))
    (fun g => Grows nodes g ∧ X.ID ∈ childsAt g iB) (fun g => X.ID ∈ childsAt g iC) iC
    (fun g k g2 ha hb => ⟨hstep g k g2 ha.1 hb, (grows_secondLoopBody _ _ _ k hb).mem ha.2⟩)
    (fun _ k _ _ hq hb => (grows_secondLoopBody _ _ _ k hb).mem hq)
    (fun g g2 hg hb => secondLoopBody_inherits _ nodes g g2 iB iC C rC idsC B.ID hg.1 hC hrC
      hidsC hBC hfB hb X.ID hg.2)
    (List.range' (iB + 1) (nodes.length - (iB + 1))) gm so.Graph
    (by simp only [List.mem_range'_1]; omega) hgm hm2


/-- C19: the subclass pass is one sweep in graph order.  For a chain `C`
subclass-of `B` subclass-of `A` (`A` and `B` the last nodes carrying their
identifiers) and a property `X` with `A` in its domain, the `Childs` of `C`
contains `X` whenever `B` comes before `C` in the node list; for the chain
`a`, `b`, `c`, `x` this is so, and after moving `c` before `b`, a permutation
of the same nodes, `Parse` returns a graph in which the `Childs` of `c` is
empty: `Parse` is not invariant under permutation of the node list. -/
theorem Parse_subclass_single_sweep :
    (∀ (nodes : List SchemaGraphNode) (so : SchemaOrg) (iA iB iC : Nat)
      (A B C X : SchemaGraphNode) (rX rB rC : IDRef) (idsX idsB idsC : List NodeID),
      Parse (nodes.map some) = .ok so →
      nodes[iA]? = some A → (∀ n ∈ nodes.drop (iA + 1), n.ID ≠ A.ID) →
      nodes[iB]? = some B → (∀ n ∈ nodes.drop (iB + 1), n.ID ≠ B.ID) →
      nodes[iC]? = some C → X ∈ nodes →
      X.SchemaDomainIncludes = some rX → rX.GetIDs = .ok idsX → A.ID ∈ idsX →
      B.RdfsSubClassOf = some rB → rB.GetIDs = .ok idsB → A.ID ∈ idsB →
      C.RdfsSubClassOf = some rC → rC.GetIDs = .ok idsC → B.ID ∈ idsC →
      iB < iC → X.ID ∈ childsAt so.Graph iC) ∧
    (Parse (chainGraph.map some)).childs = some [["x"], ["x"], ["x"], []] ∧
    (Parse (chainGraphSwapped.map some)).childs = some [["x"], [], ["x"], []] ∧
    chainGraphSwapped.Perm chainGraph :=
  ⟨subclass_chain_inherits, rfl, rfl, List.Perm.cons _ (List.Perm.swap _ _ _)⟩

end generator
